import Mathlib

/-!
Verification development for the Transfuse styling and block-extraction
engine (`src/dom.cpp`, `src/inject.cpp`, `src/format-docx.cpp`).

Strings manipulated by the C++ code (`std::string`, `xmlString`) are
embedded as `List Char`; element names and attribute names as `String`.
The ICU regular expressions of the source are compiled by hand into
deterministic left-to-right scanners over `List Char`; each scanner is a
faithful compilation of one concrete pattern (leftmost match, with the
lazy/greedy group choices resolved as ICU resolves them for that
pattern, which is deterministic because every quantified group of these
patterns is delimiter-bounded).

Unicode character classes: the patterns of the source use the ICU
classes `\s` (defined by ICU as `[\t\n\f\r\p{Z}]`), `\p{Z}`, `\p{Zs}`,
`\p{L}`, `\p{N}`, `\p{M}`, `\w`.  `isWS` below is the exact class
`[\t\n\f\r\p{Z}]`, which coincides with every whitespace class union
appearing in the source (`[\s\p{Zs}]`, `[\s\r\n\p{Z}]`).  The letter,
digit and mark classes are modelled by their restriction to Basic Latin
(`Char.isAlpha`, `Char.isDigit`, no marks); every concrete string
appearing in the theorems below stays inside that subset, where the
restriction agrees with the full Unicode classes.

Constants that live in headers not present under `src/` (the block
sentinels of `shared.hpp`, `trim`, `append_xml`, `base64_url`, the
persistent style store of `state.hpp`) are either modelled from the
spec (marked in their doc comments) or passed as parameters.
-/

set_option maxHeartbeats 1000000

namespace Transfuse

/-- The ICU whitespace class `[\t\n\f\r\p{Z}]`.  ICU defines the regex
class `\s` as exactly this union, so the source's `[\s\p{Zs}]` (in
`rx_space_only`) and `[\s\r\n\p{Z}]` (in `rx_blank_only`, `rx_blank_head`,
`rx_blank_tail`) both equal this set. -/
def isWS (c : Char) : Bool :=
  c = ' ' || c = '\t' || c = '\n' || c = '\r' || c.val == 12 ||
  c.val == 0xA0 || c.val == 0x1680 || (0x2000 ≤ c.val && c.val ≤ 0x200A) ||
  c.val == 0x2028 || c.val == 0x2029 || c.val == 0x202F || c.val == 0x205F ||
  c.val == 0x3000

/-- Restriction of `\p{L}` (`\p{M}` is empty on the modelled subset). -/
def isL (c : Char) : Bool := c.isAlpha

/-- Restriction of `[\p{L}\p{M}]`. -/
def isLM (c : Char) : Bool := c.isAlpha

/-- Restriction of `[\p{L}\p{N}\p{M}]`. -/
def isLNM (c : Char) : Bool := c.isAlpha || c.isDigit

/-- Restriction of `[\w\p{L}\p{N}\p{M}]` (the class of `rx_any_alnum`). -/
def isAlnumAny (c : Char) : Bool := c.isAlpha || c.isDigit || c = '_'

/-- Inline open begin delimiter U+E011 (`TFI_OPEN_B`). -/
def tfiOB : Char := '\uE011'

/-- Inline open end delimiter U+E012 (`TFI_OPEN_E`). -/
def tfiOE : Char := '\uE012'

/-- Inline close delimiter U+E013 (`TFI_CLOSE`). -/
def tfiC : Char := '\uE013'

/-- Protected-inline open begin delimiter U+E020 (`TFP_OPEN_B`). -/
def tfpOB : Char := '\uE020'

/-- Protected-inline open end delimiter U+E021 (`TFP_OPEN_E`). -/
def tfpOE : Char := '\uE021'

/-- `matchAt pat s i` holds when `pat` occurs in `s` at index `i`
(the embedding of a successful `std::string::find` probe). -/
def matchAt (pat s : List Char) (i : Nat) : Bool :=
  (s.drop i).take pat.length == pat

/-- First occurrence of `pat` in `s` (offset into `s`), the embedding of
`std::string::find(pat)`; `none` plays the role of `npos`. -/
def findSuf (pat : List Char) : List Char → Option Nat
  | [] => if pat = [] then some 0 else none
  | c :: cs =>
    if (c :: cs).take pat.length = pat then some 0
    else (findSuf pat cs).map (· + 1)

/-- `std::string::find(pat, i)`: first occurrence of `pat` at index `≥ i`. -/
def findFrom (pat s : List Char) (i : Nat) : Option Nat :=
  (findSuf pat (s.drop i)).map (· + i)

/-- Modelled from the spec: the `trim` helper of the missing
`shared.hpp`, which trims leading and trailing whitespace from the
translated block body ("replace the region ... with the trimmed,
entity-escaped body"). -/
def trimWS (s : List Char) : List Char :=
  ((s.dropWhile isWS).reverse.dropWhile isWS).reverse

/-- Modelled from the spec: the `append_xml` helper of the missing
`shared.hpp` ("entity-escaped"); the second argument of the C++
function selects additional quote escaping for attribute values. -/
def escapeXml (attr : Bool) (s : List Char) : List Char :=
  (s.map (fun c =>
    if c = '&' then "&amp;".toList
    else if c = '<' then "&lt;".toList
    else if c = '>' then "&gt;".toList
    else if attr && c = '"' then "&quot;".toList
    else [c])).flatten

/-!
## Injector: splicing translated blocks (`inject.cpp` lines 88-121)

The sentinel byte strings `TFB_OPEN_B`, `TFB_OPEN_E`, `TFB_CLOSE_B`,
`TFB_CLOSE_E` live in the missing `shared.hpp`; they are passed as
parameters (`mb`/`me` below and the four arguments of `injectBlock`).
The spec fixes only that they are multi-byte strings disjoint from
legal document text; the literal `3` in the marker-removal loops of the
source (`content.erase(..., ... e + 3)`) is the byte length of
`TFB_OPEN_E`/`TFB_CLOSE_E`.
-/

/-- The replacement loop for one translated block (`inject.cpp` 105-115):
repeatedly find the open marker `tb`, then the close marker `te` at or
after the end of the open marker, and replace everything from the start
of the open marker through the end of the close marker by `buf`.  The
boolean result is `true` when at least one replacement happened (in the
source, `l != 0`).  `fuel ≥ s.length + 1` always suffices because each
step strictly shortens the remainder. -/
def replPairs (tb te buf : List Char) : Nat → List Char → List Char × Bool
  | 0, s => (s, false)
  | fuel + 1, s =>
    match findSuf tb s with
    | none => (s, false)
    | some b =>
      match findFrom te s (b + tb.length) with
      | none => (s, false)
      | some e =>
        let r := replPairs tb te buf fuel (s.drop (e + te.length))
        (s.take b ++ buf ++ r.1, true)

/-- Spec-side restatement ("locate every occurrence of the matching
open/close sentinel pair in `content` ... and replace the region
between them (sentinels included) with the trimmed, entity-escaped
body"), written from the spec's words for comparison with `replPairs`. -/
def replPairsSpec (tb te buf : List Char) : Nat → List Char → List Char
  | 0, s => s
  | fuel + 1, s =>
    match findSuf tb s with
    | none => s
    | some b =>
      match findFrom te s (b + tb.length) with
      | none => s
      | some e =>
        s.take b ++ buf ++ replPairsSpec tb te buf fuel (s.drop (e + te.length))

/-- `content` contains a complete open/close pair for the markers. -/
def HasPair (tb te s : List Char) : Prop :=
  ∃ b e, matchAt tb s b = true ∧ matchAt te s e = true ∧ b + tb.length ≤ e

/-- Processing of one `(id, body)` pair read from the translated stream
(`inject.cpp` 92-121): the body is trimmed and entity-escaped, the
markers `openB ++ id ++ openE` and `closeB ++ id ++ closeE` are built,
every complete pair is replaced, and the error flag (`l == 0` in the
source, which prints "Block ... did not exist in this document.") is
returned alongside the new content. -/
def injectBlock (openB openE closeB closeE id body s : List Char) :
    List Char × Bool :=
  let tb := openB ++ id ++ openE
  let te := closeB ++ id ++ closeE
  let buf := escapeXml false (trimWS body)
  let r := replPairs tb te buf (s.length + 1) s
  (r.1, !r.2)

/-- The stream loop of `inject.cpp` 88-121: pairs with an empty id are
skipped; for the others the block is spliced in and, on failure, the id
is recorded on the error stream. -/
def injectAll (openB openE closeB closeE : List Char)
    (blocks : List (List Char × List Char)) (s : List Char) :
    List Char × List (List Char) :=
  blocks.foldl
    (fun acc p =>
      if p.1 = [] then acc
      else
        let r := injectBlock openB openE closeB closeE p.1 p.2 acc.1
        (r.1, acc.2 ++ if r.2 then [p.1] else []))
    (s, [])

/-- The leftover-marker removal loops of `inject.cpp` 123-137: find the
begin bytes `mb`, find the end bytes `me` from there, erase from the
begin position through three bytes past the end position (`e + 3`; the
end sentinels are 3-byte literals).  When the end search fails the
source erases through `npos + 3`, an out-of-range erase; that branch is
modelled by `none`. -/
def removeMarkers (mb me : List Char) : Nat → List Char → Option (List Char)
  | 0, s => some s
  | fuel + 1, s =>
    match findSuf mb s with
    | none => some s
    | some b =>
      match findFrom me s b with
      | none => none
      | some e => removeMarkers mb me fuel (s.take b ++ s.drop (e + 3))

/-- The decidable form of C10's precondition: every occurrence of the
begin bytes is followed (at the same index or later) by an occurrence
of the end bytes. -/
def followedByEnd (mb me s : List Char) : Bool :=
  (List.range s.length).all fun b =>
    !matchAt mb s b ||
      (List.range s.length).any fun e => decide (b ≤ e) && matchAt me s e

/-- Alternation of marker-free text runs and complete markers:
`assemble mb me t0 [(i1,t1),...,(in,tn)]`
is `t0 ++ mb ++ i1 ++ me ++ t1 ++ ... ++ mb ++ in ++ me ++ tn`. -/
def assemble (mb me : List Char) : List Char → List (List Char × List Char) → List Char
  | t0, [] => t0
  | t0, (i, t) :: rest => t0 ++ mb ++ i ++ me ++ assemble mb me t rest

/-- The concatenation of the text runs of an alternation (what the
removal loop is meant to leave behind). -/
def textRuns : List Char → List (List Char × List Char) → List Char
  | t0, [] => t0
  | t0, (_, t) :: rest => t0 ++ textRuns t rest

/-- `s` contains none of the characters of `bad`. -/
def charsDisjoint (bad s : List Char) : Bool :=
  s.all fun c => !bad.contains c

/-- Well-formed alternation: every text run and every id of the
alternation avoids the sentinel characters, and ids are nonempty. -/
def altOK (mb me : List Char) : List Char → List (List Char × List Char) → Bool
  | t0, [] => charsDisjoint (mb ++ me) t0
  | t0, (i, t) :: rest =>
    charsDisjoint (mb ++ me) t0 && !i.isEmpty &&
      charsDisjoint (mb ++ me) i && altOK mb me t rest

/-- Both leftover-marker removal loops of `inject.cpp` 123-137 run in
sequence: first the open markers, then the close markers. -/
def removeAllMarkers (ob oe cb ce s : List Char) : Option (List Char) :=
  match removeMarkers ob oe (s.length + 1) s with
  | none => none
  | some s1 => removeMarkers cb ce (s1.length + 1) s1

/-!
## Style Cleanup (`dom.cpp` `cleanup_styles`, lines 665-784)

Each block of `cleanup_styles` is one ICU `RegexMatcher` driven by a
`find()` loop that copies the unmatched gaps verbatim, rewrites each
match, and resumes scanning at the end of the match.  `scanF` is that
driver: it walks the string left to right, attempts the pattern at each
position, and on a match emits the rewritten text and continues after
the match.  One `Option`-valued matcher per regex encodes one pattern;
each matcher is deterministic because in each pattern every quantified
group is bounded by a delimiter character excluded from its class, so
the lazy/greedy choices of ICU admit exactly one candidate per
attempt position.
-/

/-- Left-to-right regex-replace driver: at each position attempt the
matcher; on success emit its rewritten output and continue after the
match, otherwise emit the character and move one position right.
`fuel = s.length` always suffices since every step consumes at least
one input character. -/
def scanF (f : List Char → Option (List Char × List Char)) :
    Nat → List Char → List Char
  | 0, s => s
  | _ + 1, [] => []
  | fuel + 1, c :: cs =>
    match f (c :: cs) with
    | some (out, rest) => out ++ scanF f fuel rest
    | none => c :: scanF f fuel cs

/-- Run a matcher-driven scan over a whole string. -/
def runScan (f : List Char → Option (List Char × List Char))
    (s : List Char) : List Char :=
  scanF f s.length s

/-- Does a list of characters end with a `[\p{L}\p{M}]` character? -/
def endsLM (l : List Char) : Bool :=
  match l.getLast? with
  | some c => isLM c
  | none => false

/-- Matcher for `rx_alpha_prefix`
`([\p{L}\p{N}\p{M}]*?[\p{L}\p{M}])([^]+)(\p{L}+)`:
an alphanumeric run ending in a letter, immediately followed by an
inline-open sequence, followed by letters; the rewrite moves the run
inside the span (tag, then prefix run, then following letters). -/
def mAlphaPre (s : List Char) : Option (List Char × List Char) :=
  let run := s.takeWhile isLNM
  if !endsLM run then none else
  match s.dropWhile isLNM with
  | c :: r2 =>
    if c ≠ tfiOB then none else
    let mid := r2.takeWhile (fun x => x ≠ tfiOE)
    if mid = [] then none else
    match r2.dropWhile (fun x => x ≠ tfiOE) with
    | _ :: r4 =>
      let suf := r4.takeWhile isL
      if suf = [] then none else
      some ((tfiOB :: mid ++ [tfiOE]) ++ run ++ suf, r4.dropWhile isL)
    | [] => none
  | [] => none

/-- Matcher for `rx_alpha_suffix`
`(\p{L}[\p{L}\p{M}]*)()(\p{L}[\p{L}\p{N}\p{M}]*)`: letters ending
at an inline close, followed by letters; the rewrite moves the trailing
letters inside (prefix letters, following letters, then the close). -/
def mAlphaSuf (s : List Char) : Option (List Char × List Char) :=
  match s with
  | c :: cs =>
    if !isL c then none else
    let g1t := cs.takeWhile isLM
    match cs.dropWhile isLM with
    | d :: r2 =>
      if d ≠ tfiC then none else
      match r2 with
      | x :: r3 =>
        if !isL x then none else
        let g3t := r3.takeWhile isLNM
        some ((c :: g1t) ++ (x :: g3t) ++ [tfiC], r3.dropWhile isLNM)
      | [] => none
    | [] => none
  | [] => none

/-- Matcher for `rx_spc_prefix` `([^]+)([\s\p{Zs}]+)`:
leading whitespace inside a span moves before the open sequence. -/
def mSpcPre (s : List Char) : Option (List Char × List Char) :=
  match s with
  | c :: cs =>
    if c ≠ tfiOB then none else
    let mid := cs.takeWhile (fun x => x ≠ tfiOE)
    if mid = [] then none else
    match cs.dropWhile (fun x => x ≠ tfiOE) with
    | _ :: r2 =>
      let ws := r2.takeWhile isWS
      if ws = [] then none else
      some (ws ++ (tfiOB :: mid ++ [tfiOE]), r2.dropWhile isWS)
    | [] => none
  | [] => none

/-- Matcher for `rx_spc_suffix` `([\s\p{Zs}]+)()`: trailing
whitespace inside a span moves after the close delimiter. -/
def mSpcSuf (s : List Char) : Option (List Char × List Char) :=
  let ws := s.takeWhile isWS
  if ws = [] then none else
  match s.dropWhile isWS with
  | d :: r2 => if d = tfiC then some (tfiC :: ws, r2) else none
  | [] => none

/-- The three inline delimiter characters U+E011-U+E013
(the class `[-]`). -/
def isDelim (c : Char) : Bool := c = tfiOB || c = tfiOE || c = tfiC

/-- Matcher for `rx_merge`
`([^]+)([^-]+)([\s\p{Zs}]*)(\1)`:
two adjacent spans with identical open sequences separated only by
whitespace are merged; the rewrite keeps the first open sequence, the
first body and the whitespace, and drops the first close and the
second open sequence. -/
def mMerge (s : List Char) : Option (List Char × List Char) :=
  match s with
  | c :: cs =>
    if c ≠ tfiOB then none else
    let mid := cs.takeWhile (fun x => x ≠ tfiOE)
    if mid = [] then none else
    match cs.dropWhile (fun x => x ≠ tfiOE) with
    | _ :: r2 =>
      let tag := tfiOB :: mid ++ [tfiOE]
      let body := r2.takeWhile (fun x => !isDelim x)
      if body = [] then none else
      match r2.dropWhile (fun x => !isDelim x) with
      | d :: r3 =>
        if d ≠ tfiC then none else
        let ws := r3.takeWhile isWS
        let r4 := r3.dropWhile isWS
        if (r4.take tag.length) = tag then
          some (tag ++ body ++ ws, r4.drop tag.length)
        else none
      | [] => none
    | [] => none
  | [] => none

/-- `cleanup_styles` (`dom.cpp` 665-784): the five regex passes applied
in source order — alphabetic prefix migration, alphabetic suffix
migration, whitespace out of span starts, whitespace out of span ends,
merge of adjacent identical spans. -/
def cleanup_styles (s : List Char) : List Char :=
  runScan mMerge (runScan mSpcSuf (runScan mSpcPre
    (runScan mAlphaSuf (runScan mAlphaPre s))))

/-!
## Injector: inline delimiter expansion (`inject.cpp` 143-220)

`state.style(kind, id)` (the style-store lookup, `state.hpp` not under
`src/`) is passed as the parameter `g`; per the spec it returns the
`(open, close)` markup pair and empty strings when the pair is absent.
Logged errors are modelled as the list of `(kind, id)` pairs printed to
the error stream.
-/

/-- Split a delimiter-free chunk `name:id` at its last colon, with both
sides nonempty — the unique successful assignment of the groups
`([^]+?):([^:]+)` (the id group excludes colons, so the
lazy name group always extends to the last colon). -/
def splitLastColon (l : List Char) : Option (List Char × List Char) :=
  let r := l.reverse
  let idr := r.takeWhile (fun x => x ≠ ':')
  match r.dropWhile (fun x => x ≠ ':') with
  | _ :: restr =>
    if idr = [] || restr = [] then none
    else some (restr.reverse, idr.reverse)
  | [] => none

/-- Parse the remainder of an inline span after its leading U+E011,
per `rx_inlines`
`([^]+?):([^:]+)([^-]*)`:
returns kind, id, body, and the rest of the input after the close. -/
def parseInline (cs : List Char) :
    Option (List Char × List Char × List Char × List Char) :=
  let chunk := cs.takeWhile (fun x => x ≠ tfiOE)
  if chunk = [] then none else
  match cs.dropWhile (fun x => x ≠ tfiOE) with
  | _ :: r2 =>
    match splitLastColon chunk with
    | some (kind, id) =>
      let body := r2.takeWhile (fun x => !isDelim x)
      match r2.dropWhile (fun x => !isDelim x) with
      | d :: r3 => if d = tfiC then some (kind, id, body, r3) else none
      | [] => none
    | none => none
  | [] => none

/-- The inline-expansion pass of `inject.cpp` 153-186: each matched
span is replaced by `open ++ body ++ close` from the style lookup; a
lookup returning two empty strings is logged ("Inline tag ... did not
exist in this document.") and processing continues.  The boolean is
the source's `did` flag (some match was rewritten). -/
def expInl (g : List Char → List Char → List Char × List Char) :
    Nat → List Char → List Char × List (List Char × List Char) × Bool
  | 0, s => (s, [], false)
  | _ + 1, [] => ([], [], false)
  | fuel + 1, c :: cs =>
    if c = tfiOB then
      match parseInline cs with
      | some (kind, id, body, rest) =>
        let oc := g kind id
        let r := expInl g fuel rest
        (oc.1 ++ body ++ oc.2 ++ r.1,
         (if oc.1 = [] ∧ oc.2 = [] then [(kind, id)] else []) ++ r.2.1,
         true)
      | none =>
        let r := expInl g fuel cs
        (c :: r.1, r.2.1, r.2.2)
    else
      let r := expInl g fuel cs
      (c :: r.1, r.2.1, r.2.2)

/-- Parse the remainder of a protected-inline tag after its leading
U+E020, per `rx_prots` `([^]+?):([^:]+)`. -/
def parseProtTag (cs : List Char) :
    Option (List Char × List Char × List Char) :=
  let chunk := cs.takeWhile (fun x => x ≠ tfpOE)
  if chunk = [] then none else
  match cs.dropWhile (fun x => x ≠ tfpOE) with
  | _ :: r2 =>
    match splitLastColon chunk with
    | some (kind, id) => some (kind, id, r2)
    | none => none
  | [] => none

/-- The protected-inline expansion pass of `inject.cpp` 188-218: a
matched tag is replaced by `open ++ close` (no body), with the same
empty-lookup logging. -/
def expProt (g : List Char → List Char → List Char × List Char) :
    Nat → List Char → List Char × List (List Char × List Char) × Bool
  | 0, s => (s, [], false)
  | _ + 1, [] => ([], [], false)
  | fuel + 1, c :: cs =>
    if c = tfpOB then
      match parseProtTag cs with
      | some (kind, id, rest) =>
        let oc := g kind id
        let r := expProt g fuel rest
        (oc.1 ++ oc.2 ++ r.1,
         (if oc.1 = [] ∧ oc.2 = [] then [(kind, id)] else []) ++ r.2.1,
         true)
      | none =>
        let r := expProt g fuel cs
        (c :: r.1, r.2.1, r.2.2)
    else
      let r := expProt g fuel cs
      (c :: r.1, r.2.1, r.2.2)

/-- One iteration of the `while (did)` loop of `inject.cpp` 150-219:
the inline pass followed by the protected-inline pass, with the
accumulated log and the combined `did` flag. -/
def expandPass (g : List Char → List Char → List Char × List Char)
    (s : List Char) : List Char × List (List Char × List Char) × Bool :=
  let r1 := expInl g s.length s
  let r2 := expProt g r1.1.length r1.1
  (r2.1, r1.2.1 ++ r2.2.1, r1.2.2 || r2.2.2)

/-- The `while (did)` loop itself: repeat the two passes until an
iteration rewrites nothing.  The C++ loop is unbounded; `fuel` bounds
the iteration count of the embedding, and the theorems below hold for
every sufficiently large fuel. -/
def expandLoop (g : List Char → List Char → List Char × List Char) :
    Nat → List Char → List (List Char × List Char) →
    List Char × List (List Char × List Char)
  | 0, s, log => (s, log)
  | fuel + 1, s, log =>
    let r := expandPass g s
    if r.2.2 then expandLoop g fuel r.1 (log ++ r.2.1)
    else (r.1, log ++ r.2.1)

/-- `s` contains none of the inline delimiter characters U+E011-E013. -/
def delimFree (s : List Char) : Bool :=
  s.all fun c => !isDelim c

/-- Concrete interim string for the Style Cleanup idempotence analysis:
`ab` then an open sequence for span `b:1`, then `cd`, then a nested open
sequence for span `i:2`, then `ef`, then the two closes — the interim
encoding of markup like `ab<b>cd<i>ef</i></b>`. -/
def c2str : List Char :=
  'a' :: 'b' :: tfiOB :: 'b' :: ':' :: '1' :: tfiOE :: 'c' :: 'd' ::
    tfiOB :: 'i' :: ':' :: '2' :: tfiOE :: 'e' :: 'f' :: tfiC :: [tfiC]

/-- Open-marker begin bytes for the C10 analysis (the UTF-8 bytes of a
private-use sentinel, each byte embedded as one character). -/
def c10mb : List Char := ['\xEE', '\x80', '\x80']

/-- Open-marker end bytes for the C10 analysis. -/
def c10me : List Char := ['\xEE', '\x80', '\x81']

/-- Close-marker begin bytes for the C10 analysis. -/
def c10cb : List Char := ['\xEF', '\x80', '\x82']

/-- Close-marker end bytes for the C10 analysis. -/
def c10ce : List Char := ['\xEF', '\x80', '\x83']

/-- Content for the C10 analysis: a stray lead byte, one complete open
marker with id `q`, then two trailing continuation bytes.  Erasing the
marker splices the stray lead byte onto the continuation bytes, forming
a fresh begin-byte occurrence with no end bytes after it. -/
def c10content : List Char :=
  ['\xEE', '\xEE', '\x80', '\x80', 'q', '\xEE', '\x80', '\x81', '\x80', '\x80']

/-- Concrete open-begin sentinel for the C1 witness. -/
def c1oB : List Char := ['\x01']

/-- Concrete open-end sentinel for the C1 witness. -/
def c1oE : List Char := ['\x02']

/-- Concrete close-begin sentinel for the C1 witness. -/
def c1cB : List Char := ['\x03']

/-- Concrete close-end sentinel for the C1 witness. -/
def c1cE : List Char := ['\x04']

/-- Concrete block id for the C1 witness. -/
def c1id : List Char := ['1']

/-- Concrete translated body for the C1 witness. -/
def c1body : List Char := ' ' :: 'b' :: '&' :: [' ']

/-- Concrete interim content with one complete sentinel pair for id `1`. -/
def c1doc : List Char :=
  'A' :: '\x01' :: '1' :: '\x02' :: 'o' :: '\x03' :: '1' :: '\x04' :: ['B']

/-!
## Protected-inline promotion (`dom.cpp` `protect_to_styles`, lines 327-461)

`state.style(kind, open, close)` (the style-store allocation) is passed
as the parameter `sty`; it returns the allocated id.  The multi-byte
`TFI_*` literals are the single private-use characters of this model.
The result is an `Option`: `none` models the abnormal paths of the
source (an out-of-range `substr` when `rfind` returns `npos`, and the
ill-defined offset arithmetic when the close-delimiter search of the
inline-start branch fails).
-/

/-- Literal `<tf-protect>` open tag. -/
def ptag : List Char := "<tf-protect>".toList

/-- Literal `</tf-protect>` close tag. -/
def ctag : List Char := "</tf-protect>".toList

/-- Test of `rx_block_start` `>[\s\p{Zs}]*$` on the accumulated output:
after discarding trailing whitespace the text ends with `>`. -/
def blockStartT (ns : List Char) : Bool :=
  match ns.reverse.dropWhile isWS with
  | c :: _ => c = '>'
  | [] => false

/-- Test of `rx_block_end` `^[\s\p{Zs}]*<` on the remaining input. -/
def blockEndT (suffix : List Char) : Bool :=
  match suffix.dropWhile isWS with
  | c :: _ => c = '<'
  | [] => false

/-- Test of `rx_ifx_start` `([^]+)[\s\p{Zs}]*$`: after
discarding trailing whitespace the text ends with U+E012, and some
U+E011 precedes it with at least one character and no other U+E012
between (searching right to left, an U+E011 at distance at least two
before any intervening U+E012). -/
def ifxT (ns : List Char) : Bool :=
  match ns.reverse.dropWhile isWS with
  | c :: rest =>
    c = tfiOE &&
      ((rest.takeWhile (fun x => decide (x ≠ tfiOE))).drop 1).contains tfiOB
  | [] => false

/-- Test of `rx_pfx_style` `[\s\p{Zs}]*$`. -/
def pfxStyleT (ns : List Char) : Bool :=
  match ns.reverse.dropWhile isWS with
  | c :: _ => c = tfiC
  | [] => false

/-- Test of `rx_pfx_token` `[^>\s\p{Z}]+[\s\p{Zs}]*$`. -/
def pfxTokenT (ns : List Char) : Bool :=
  match ns.reverse.dropWhile isWS with
  | c :: _ => !(c = '>' || c = tfiOE || isWS c)
  | [] => false

/-- `std::string::rfind` of a single character. -/
def rfindChar (c : Char) : List Char → Option Nat
  | [] => none
  | d :: rest =>
    match rfindChar c rest with
    | some k => some (k + 1)
    | none => if d = c then some 0 else none

/-- The body of one `rx_prots` match of `protect_to_styles`
(`dom.cpp` 372-444): `ns` is the output accumulated so far, `prot` the
protected content (group 1), `suffix` the input after the match.  The
five context branches are tried in source order. -/
def handleProt (sty : List Char → List Char → List Char → List Char)
    (ns prot suffix : List Char) : Option (List Char × List Char) :=
  if blockStartT ns then some (ns ++ prot, suffix)
  else if blockEndT suffix then some (ns ++ prot, suffix)
  else if ifxT ns then
    let hash := sty ['P'] prot []
    let lastS := ns.length - (ns.reverse.takeWhile isWS).length
    let ns1 := ns.take lastS ++ (tfiOB :: 'P' :: ':' :: hash ++ [tfiOE]) ++
      ns.drop lastS
    match findSuf [tfiC] suffix with
    | some fc => some (ns1 ++ suffix.take fc ++ [tfiC], suffix.drop fc)
    | none => none
  else if pfxStyleT ns then
    let hash := sty ['P'] [] prot
    match rfindChar tfiOB ns with
    | some k =>
      some (ns.take k ++ (tfiOB :: 'P' :: ':' :: hash ++ [tfiOE]) ++
        ns.drop k ++ [tfiC], suffix)
    | none => none
  else if pfxTokenT ns then
    let hash := sty ['P'] [] prot
    let core := ns.length - (ns.reverse.takeWhile isWS).length
    let tok := ((ns.reverse.dropWhile isWS).takeWhile
      (fun c => !(c = '>' || c = tfiOE || isWS c))).length
    some (ns.take (core - tok) ++ (tfiOB :: 'P' :: ':' :: hash ++ [tfiOE]) ++
      ns.drop (core - tok) ++ [tfiC], suffix)
  else some (ns, suffix)

/-- Matcher for the merge regex `</tf-protect>([\s\r\n\p{Z}]*)<tf-protect>`:
adjacent protected regions separated by whitespace are merged by
dropping the two tags and keeping the whitespace. -/
def mProtMerge (s : List Char) : Option (List Char × List Char) :=
  if s.take ctag.length = ctag then
    let afterC := s.drop ctag.length
    let ws := afterC.takeWhile isWS
    let rest := afterC.dropWhile isWS
    if rest.take ptag.length = ptag then some (ws, rest.drop ptag.length)
    else none
  else none

/-- One pass of the `rx_prots` find loop (`dom.cpp` 370-445): scan for
`<tf-protect>(.*?)</tf-protect>` regions and hand each to `handleProt`;
the boolean records whether any region was handled (`last != 0`). -/
def protectPass (sty : List Char → List Char → List Char → List Char) :
    Nat → List Char → List Char → Bool → Option (List Char × Bool)
  | 0, ns, styled, found => some (ns ++ styled, found)
  | fuel + 1, ns, styled, found =>
    match findSuf ptag styled with
    | none => some (ns ++ styled, found)
    | some b =>
      match findSuf ctag (styled.drop (b + ptag.length)) with
      | none => some (ns ++ styled, found)
      | some c =>
        let prot := (styled.drop (b + ptag.length)).take c
        let suffix := styled.drop (b + ptag.length + c + ctag.length)
        match handleProt sty (ns ++ styled.take b) prot suffix with
        | none => none
        | some (ns2, suffix2) => protectPass sty fuel ns2 suffix2 true

/-- The bounded convergence loop of `protect_to_styles` (up to 100
iterations; an iteration that handles nothing stops the loop). -/
def ptsLoop (sty : List Char → List Char → List Char → List Char) :
    Nat → List Char → Option (List Char)
  | 0, styled => some styled
  | n + 1, styled =>
    match protectPass sty (styled.length + 1) [] styled false with
    | none => none
    | some (ns, found) => if found then ptsLoop sty n ns else some styled

/-- `protect_to_styles` (`dom.cpp` 327-461): merge whitespace-adjacent
protected regions once, then promote protected regions to styles on the
surrounding tokens until convergence (at most 100 passes). -/
def protect_to_styles (sty : List Char → List Char → List Char → List Char)
    (styled : List Char) : Option (List Char) :=
  ptsLoop sty 100 (runScan mProtMerge styled)

/-- Depth scan over the reversed text before a final close delimiter:
offset of the inline-open delimiter matching that close. -/
def depthScan : List Char → Nat → Option Nat
  | [], _ => none
  | c :: rest, depth =>
    if c = tfiOB then
      if depth = 1 then some 0 else (depthScan rest (depth - 1)).map (· + 1)
    else if c = tfiC then (depthScan rest (depth + 1)).map (· + 1)
    else (depthScan rest depth).map (· + 1)

/-- Index of the inline-open delimiter whose span the final inline-close
delimiter of `core` closes (delimiter matching by depth). -/
def matchingOpenIdx (core : List Char) : Option Nat :=
  match core.reverse with
  | c :: rest =>
    if c = tfiC then (depthScan rest 1).map (fun p => core.length - 2 - p)
    else none
  | [] => none

/-- The claim's reading of the close-context branch, written from the
spec's words: wrap "the immediately preceding style (the complete span
whose close delimiter precedes the region)", i.e. wrap from the open
delimiter that matches the final close delimiter of the preceding
text. -/
def claimWrapC8 (sty : List Char → List Char → List Char → List Char)
    (ns prot suffix : List Char) : Option (List Char × List Char) :=
  let hash := sty ['P'] [] prot
  match matchingOpenIdx (ns.reverse.dropWhile isWS).reverse with
  | some k =>
    some (ns.take k ++ (tfiOB :: 'P' :: ':' :: hash ++ [tfiOE]) ++
      ns.drop k ++ [tfiC], suffix)
  | none => none

/-- Concrete style allocator for the C8 analysis. -/
def c8sty : List Char → List Char → List Char → List Char := fun _ _ _ => ['h']

/-- Preceding text for the C8 analysis: an outer span `b:1` whose body
contains a nested, already closed span `i:2` — the text ends with the
outer close delimiter. -/
def c8ns : List Char :=
  tfiOB :: 'b' :: ':' :: '1' :: tfiOE :: 'X' ::
    tfiOB :: 'i' :: ':' :: '2' :: tfiOE :: 'Y' :: tfiC :: 'Z' :: [tfiC]

/-!
## Element tree (`libxml2` node model)

A mutable `xmlNode` tree is embedded as an immutable inductive tree;
mutation becomes reconstruction.  The `name` of a node folds in the
namespace prefix (`append_name_ns` renders `prefix:name`); libxml gives
text nodes the name `text`, CDATA sections `cdata-section` and comments
`comment`.  Attributes (`properties`) live on element nodes only — the
only nodes this code ever sets attributes on.
-/

/-- An attribute: ordered name/value pair. -/
structure XAttr where
  name : String
  val : List Char
deriving DecidableEq

/-- A node of the element tree. -/
inductive XNode where
  | elem (name : String) (attrs : List XAttr) (children : List XNode)
  | text (content : List Char)
  | cdata (content : List Char)
  | comment (content : List Char)

/-- The libxml node name (namespace prefix folded in for elements). -/
def XNode.xname : XNode → String
  | .elem n _ _ => n
  | .text _ => "text"
  | .cdata _ => "cdata-section"
  | .comment _ => "comment"

/-- The attribute list (`properties`); empty for non-elements. -/
def XNode.nattrs : XNode → List XAttr
  | .elem _ a _ => a
  | _ => []

/-- `child->type == XML_ELEMENT_NODE`. -/
def XNode.isElem : XNode → Bool
  | .elem _ _ _ => true
  | _ => false

/-- `child->type == XML_TEXT_NODE`. -/
def XNode.isText : XNode → Bool
  | .text _ => true
  | _ => false

/-- `child->content` (empty for elements). -/
def XNode.textContent : XNode → List Char
  | .text s => s
  | .cdata s => s
  | .comment s => s
  | .elem _ _ _ => []

/-- ASCII lowering of one character (the `to_lower` of `shared.hpp`
operates on `xmlChar` bytes; tag names are ASCII). -/
def lowerChar (c : Char) : Char :=
  if 'A' ≤ c && c ≤ 'Z' then Char.ofNat (c.toNat + 32) else c

/-- `to_lower` on a name (kernel-computable ASCII lowering). -/
def lowerStr (s : String) : String := ⟨s.data.map lowerChar⟩

/-- `child->type == XML_ELEMENT_NODE || child->properties`: the
element-likeness test used throughout `dom.cpp`. -/
def elementLike (n : XNode) : Bool := n.isElem || !n.nattrs.isEmpty

/-- `xmlSetProp` on the attribute list: replace an existing attribute of
that name, else append. -/
def setAttr (a : List XAttr) (name : String) (v : List Char) : List XAttr :=
  if a.any (fun x => x.name = name) then
    a.map (fun x => if x.name = name then ⟨name, v⟩ else x)
  else a ++ [⟨name, v⟩]

/-- `xmlSetProp` on a node (non-elements are untouched; the source only
sets properties on nodes that are element-like). -/
def setProp (n : XNode) (name : String) (v : List Char) : XNode :=
  match n with
  | .elem nm a c => .elem nm (setAttr a name v) c
  | other => other

/-- `xmlHasProp`/value access. -/
def getAttr (n : XNode) (name : String) : Option (List Char) :=
  (n.nattrs.find? (fun x => x.name = name)).map XAttr.val

/-- `xmlRemoveProp` of every attribute of the given name. -/
def removeAttr (n : XNode) (name : String) : XNode :=
  match n with
  | .elem nm a c => .elem nm (a.filter (fun x => !(x.name = name))) c
  | other => other

/-- `rx_blank_only` (and `rx_space_only`, whose class coincides; see the
header comment): the content is nonempty and all whitespace. -/
def blankOnly (s : List Char) : Bool := !s.isEmpty && s.all isWS

/-- The leading whitespace run (`rx_blank_head` group 1). -/
def blankHead (s : List Char) : List Char := s.takeWhile isWS

/-- The trailing whitespace run (`rx_blank_tail` group 1). -/
def blankTail (s : List Char) : List Char := (s.reverse.takeWhile isWS).reverse

/-!
## Whitespace Preserver, save side (`DOM::save_spaces`, `dom.cpp` 87-163)

The child loop is embedded as a fold carrying the parent's attribute
list `pa`, the processed siblings `done` (reversed: its head is
`child->prev`) and the upcoming siblings (`rest`, whose head is
`child->next`).
-/

/-- The pure-whitespace anchor choice of `save_spaces` (`dom.cpp`
108-122), applied to a text node whose whole content `s` is whitespace:
no previous sibling — parent `tf-space-prefix`; else no next sibling —
parent `tf-space-suffix`; else element-like previous — its
`tf-space-after`; else element-like next — its `tf-space-before`; else
nothing.  Returns the updated parent attributes, previous siblings
(reversed) and next siblings. -/
def blankPlace (pa : List XAttr) (done rest : List XNode) (s : List Char) :
    List XAttr × List XNode × List XNode :=
  match done, rest with
  | [], _ => (setAttr pa "tf-space-prefix" s, done, rest)
  | _ :: _, [] => (setAttr pa "tf-space-suffix" s, done, rest)
  | d :: ds, r :: rs =>
    if elementLike d then (pa, setProp d "tf-space-after" s :: ds, rest)
    else if elementLike r then (pa, done, setProp r "tf-space-before" s :: rs)
    else (pa, done, rest)

/-- The leading-run placement of `save_spaces` (`dom.cpp` 128-140): a
nonempty leading whitespace run goes to the previous sibling's
`tf-space-after` when that sibling is element-like; with no previous
sibling it goes to the parent's `tf-space-prefix`; with a previous
sibling that is not element-like, nowhere. -/
def leadPlace (pa : List XAttr) (done : List XNode) (hd : List Char) :
    List XAttr × List XNode :=
  if hd.isEmpty then (pa, done)
  else
    match done with
    | [] => (setAttr pa "tf-space-prefix" hd, done)
    | d :: ds =>
      if elementLike d then (pa, setProp d "tf-space-after" hd :: ds)
      else (pa, done)

/-- The trailing-run placement of `save_spaces` (`dom.cpp` 145-157),
symmetric to `leadPlace` with the next sibling and the parent's
`tf-space-suffix`. -/
def tailPlace (pa : List XAttr) (rest : List XNode) (tl : List Char) :
    List XAttr × List XNode :=
  if tl.isEmpty then (pa, rest)
  else
    match rest with
    | [] => (setAttr pa "tf-space-suffix" tl, rest)
    | r :: rs =>
      if elementLike r then (pa, setProp r "tf-space-before" tl :: rs)
      else (pa, rest)

mutual

/-- Structural measure of a node that ignores attributes (attribute
edits such as `xmlSetProp` leave it unchanged), used to justify
termination of the tree walks. -/
def msrN : XNode → Nat
  | .elem _ _ c => 1 + msrL c
  | _ => 1

/-- Structural measure of a sibling list, attribute-independent. -/
def msrL : List XNode → Nat
  | [] => 0
  | x :: xs => 1 + msrN x + msrL xs

end

theorem msrN_setProp (n : XNode) (a : String) (v : List Char) :
    msrN (setProp n a v) = msrN n := by
  cases n <;> simp [setProp, msrN]

mutual

/-- `DOM::save_spaces` on one node: recurse into the children of an
element; other nodes have no children.  The C++ recursion is bounded by
the tree depth; the embedding carries explicit fuel (`msrN`/`msrL` of
the argument always suffices, and the exported `save_spaces` below uses
it), which keeps the definitions kernel-computable. -/
def saveSpacesNodeF (prot : List String) : Nat → XNode → XNode
  | 0, n => n
  | fuel + 1, .elem n a c =>
    let r := ssChildren prot fuel a [] c
    .elem n r.1 r.2
  | _ + 1, n => n

/-- The child loop of `DOM::save_spaces` (`dom.cpp` 96-162): skip
prot-named children; recurse into non-text children; for text children,
place pure whitespace by `blankPlace` (and stop), otherwise place the
leading and trailing runs by `leadPlace`/`tailPlace`.  The text node's
own content is never modified. -/
def ssChildren (prot : List String) : Nat → List XAttr → List XNode →
    List XNode → List XAttr × List XNode
  | 0, pa, done, todo => (pa, done.reverse ++ todo)
  | _ + 1, pa, done, [] => (pa, done.reverse)
  | fuel + 1, pa, done, child :: rest =>
    if prot.contains (lowerStr child.xname) then
      ssChildren prot fuel pa (child :: done) rest
    else if !child.isText then
      ssChildren prot fuel pa (saveSpacesNodeF prot fuel child :: done) rest
    else
      let s := child.textContent
      if blankOnly s then
        let r := blankPlace pa done rest s
        ssChildren prot fuel r.1 (child :: r.2.1) r.2.2
      else
        let r1 := leadPlace pa done (blankHead s)
        let r2 := tailPlace r1.1 rest (blankTail s)
        ssChildren prot fuel r2.1 (child :: r1.2) r2.2

end

/-- `DOM::save_spaces` with sufficient fuel. -/
def save_spaces (prot : List String) (t : XNode) : XNode :=
  saveSpacesNodeF prot (msrN t) t

/-!
## Styler (`DOM::save_styles`, `dom.cpp` 464-553, with
`DOM::is_only_child` 297-309 and `DOM::has_block_child` 311-324)

The tag policy tables are the members of `DOM`; the style store
`state.style(kind, otag, ctag)` is the parameter `sty`.  For
`is_only_child` the upward parent chain is embedded as a list of
frames: each frame holds the parent element's name and the siblings
before/after the node on the path.  Namespace prefixes are folded into
names (the source distinguishes `child->name` from the ns-qualified
name only by the prefix).
-/

/-- The per-format tag policy tables of `DOM`. -/
structure TagPolicy where
  tags_inline : List String
  tags_prot : List String
  tags_prot_inline : List String
  tags_raw : List String
  tags_parents_allow : List String
  tags_parents_direct : List String
  tag_attrs : List String

/-- One ancestor level for the `is_only_child` walk: the parent element
name, and the siblings before and after the node on the path. -/
structure Frame where
  pname : String
  pre : List XNode
  post : List XNode

/-- `cn->parent->children == cn || (…->next == cn && first is
whitespace text)`: the node is first among its siblings up to one
leading pure-whitespace text node (`is_space` uses `rx_space_only`,
whose class coincides with `isWS`). -/
def onlyFirst : List XNode → Bool
  | [] => true
  | [XNode.text s] => blankOnly s
  | _ => false

/-- Symmetric last-sibling test of `is_only_child`. -/
def onlyLast : List XNode → Bool
  | [] => true
  | [XNode.text s] => blankOnly s
  | _ => false

/-- `DOM::is_only_child` (`dom.cpp` 297-309): sole meaningful child of
its parent, recursing upward through inline-named parents. -/
def is_only_child (pol : TagPolicy) : List Frame → Bool
  | [] => true
  | f :: rest =>
    let oc := onlyFirst f.pre && onlyLast f.post
    if oc && pol.tags_inline.contains (lowerStr f.pname) then
      is_only_child pol rest
    else oc

/-- `DOM::has_block_child` on a children list (`dom.cpp` 311-324): some
element child is neither inline- nor protected-inline-named, or has a
block descendant itself.  Fuel-based for kernel computability; `msrL`
of the list suffices. -/
def hbcListF (pol : TagPolicy) : Nat → List XNode → Bool
  | 0, _ => false
  | _ + 1, [] => false
  | fuel + 1, c :: cs =>
    (match c with
     | .elem n _ ch =>
       !(pol.tags_inline.contains (lowerStr n) ||
         pol.tags_prot_inline.contains (lowerStr n)) || hbcListF pol fuel ch
     | _ => false) || hbcListF pol fuel cs

/-- `DOM::has_block_child` on a children list, with the fuel
instantiated at the structural measure. -/
def hbcList (pol : TagPolicy) (l : List XNode) : Bool :=
  hbcListF pol (msrL l) l

/-- `DOM::has_block_child` on a node. -/
def has_block_child (pol : TagPolicy) : XNode → Bool
  | .elem _ _ children => hbcList pol children
  | _ => false

/-- The collapse condition of `DOM::save_styles` (`dom.cpp` 534): not
protected (by prot membership, inherited protection, or a `tf-protect`
attribute), inline-named, first child not prot-named, not an only
child, and no block descendant.  Evaluated by the source only for
elements with children; on an empty children list the first-child
conjunct is false. -/
def collapsesInline (pol : TagPolicy) (frames : List Frame) (protect : Bool)
    (name : String) (attrs : List XAttr) (children : List XNode) : Bool :=
  let lname := lowerStr name
  let l_protect := pol.tags_prot.contains lname || protect ||
    attrs.any (fun x => x.name = "tf-protect")
  !l_protect && pol.tags_inline.contains lname &&
    (match children with
     | c :: _ => !pol.tags_prot.contains (lowerStr c.xname)
     | [] => false) &&
    !is_only_child pol frames && !hbcList pol children

/-- `append_attrs` with `with_tf = true` (`dom.cpp` 48-66): render every
attribute, `tf-`-prefixed ones included, with attribute-style entity
escaping (namespace declarations are folded into the attribute list). -/
def renderAttrs (attrs : List XAttr) : List Char :=
  (attrs.map (fun a =>
    ' ' :: (a.name.data ++ ('=' :: '"' :: (escapeXml true a.val ++ ['"']))))).flatten

mutual

/-- One child of the `DOM::save_styles` loop (`dom.cpp` 473-552):
text/CDATA is emitted raw under a raw-named parent and entity-escaped
otherwise; comments emit nothing; an element is rendered by the branch
chain — empty element (self-closing tag, wrapped in `tf-protect` when
protected-inline-named outside inherited protection), protected-inline
wrap, inline collapse to `U+E011 name ':' id U+E012 … U+E013` with
`id = sty name otag ctag`, or literal tags with protection propagated.
Fuel-based for kernel computability; `msrN` of the node suffices. -/
def renderOne (pol : TagPolicy) (sty : String → List Char → List Char → List Char) :
    Nat → List Frame → Bool → String → XNode → List Char
  | 0, _, _, _, _ => []
  | _ + 1, _, _, pname, .text s =>
    if pol.tags_raw.contains (lowerStr pname) then s else escapeXml false s
  | _ + 1, _, _, pname, .cdata s =>
    if pol.tags_raw.contains (lowerStr pname) then s else escapeXml false s
  | _ + 1, _, _, _, .comment _ => []
  | fuel + 1, frames, protect, _, .elem name attrs children =>
    let lname := lowerStr name
    let l_protect := pol.tags_prot.contains lname || protect ||
      attrs.any (fun x => x.name = "tf-protect")
    let otagBase := '<' :: (name.data ++ renderAttrs attrs)
    if children.isEmpty then
      let otag := otagBase ++ ['/', '>']
      if pol.tags_prot_inline.contains lname && !protect then ptag ++ otag ++ ctag
      else otag
    else
      let otag := otagBase ++ ['>']
      let ctagE := '<' :: '/' :: (name.data ++ ['>'])
      if pol.tags_prot_inline.contains lname && !protect then
        ptag ++ otag ++
          renderChildren pol sty fuel name frames true [] children ++ ctagE ++ ctag
      else if collapsesInline pol frames protect name attrs children then
        let sname := lowerStr name
        let hash := sty sname otag ctagE
        tfiOB :: (sname.data ++ (':' :: (hash ++ (tfiOE ::
          (renderChildren pol sty fuel name frames false [] children ++ [tfiC])))))
      else
        otag ++ renderChildren pol sty fuel name frames l_protect [] children ++ ctagE

/-- The sibling loop of `DOM::save_styles`: each child is rendered with
its frame (parent name, siblings before, siblings after) pushed onto
the ancestor frames. -/
def renderChildren (pol : TagPolicy)
    (sty : String → List Char → List Char → List Char) :
    Nat → String → List Frame → Bool → List XNode → List XNode → List Char
  | 0, _, _, _, _, _ => []
  | _ + 1, _, _, _, _, [] => []
  | fuel + 1, pname, frames, protect, preRev, child :: rest =>
    renderOne pol sty fuel (⟨pname, preRev.reverse, rest⟩ :: frames) protect pname
        child ++
      renderChildren pol sty fuel pname frames protect (child :: preRev) rest

end

/-- `DOM::save_styles` applied at the document node: render the
document's children (the root element) with no inherited protection. -/
def save_styles (pol : TagPolicy)
    (sty : String → List Char → List Char → List Char)
    (docChildren : List XNode) : List Char :=
  renderChildren pol sty (msrL docChildren + 1) "#document" [] false [] docChildren

/-- Tag policy for the C5 analysis: the name `x` is both inline and
protected-inline. -/
def c5pol : TagPolicy := ⟨["x"], [], ["x"], [], [], [], []⟩

/-- Ancestor frames for the C5 analysis: the parent `p` has a
non-whitespace text sibling before the node, so the node is not an only
child. -/
def c5frames : List Frame := [⟨"p", [.text "w".toList], []⟩]

/-- Concrete style allocator for the C5 analysis. -/
def c5sty : String → List Char → List Char → List Char := fun _ _ _ => ['h']

/-!
## Whitespace Preserver, restore side (`DOM::restore_spaces`, `dom.cpp`
239-284, and `DOM::create_spaces`, 191-236), and sidecar cleanliness

`xmlAddChild`/`xmlAddPrevSibling`/`xmlAddNextSibling` may coalesce a
materialized text node with an adjacent text node; coalescing affects
no element or attribute name and is not modelled.
-/

/-- `DOM::append_ltrim` (`dom.cpp` 165-175) without the target's
existing content: the appended text minus its leading whitespace run
(`rx_blank_head`). -/
def ltrimWS (s : List Char) : List Char := s.dropWhile isWS

/-- `DOM::assign_rtrim` (`dom.cpp` 177-188): the content minus its
trailing whitespace run (`rx_blank_tail`). -/
def rtrimWS (s : List Char) : List Char := (s.reverse.dropWhile isWS).reverse

/-- `xmlHasProp`/value access on a bare attribute list. -/
def getA (a : List XAttr) (name : String) : Option (List Char) :=
  (a.find? (fun x => x.name = name)).map XAttr.val

/-- `xmlRemoveProp` on a bare attribute list. -/
def removeA (a : List XAttr) (name : String) : List XAttr :=
  a.filter (fun x => !(x.name = name))

/-- One adjacent-sibling conditional of `DOM::restore_spaces`: if the
adjacent node exists and carries the attribute, combine its value into
the text content and remove the attribute from it. -/
def rsAdj (k : String) (comb : List Char → List Char → List Char)
    (s : List Char) (adj : List XNode) : List Char × List XNode :=
  match adj with
  | n :: ns =>
    match getAttr n k with
    | some v => (comb v s, removeAttr n k :: ns)
    | none => (s, n :: ns)
  | [] => (s, [])

/-- One parent conditional of `DOM::restore_spaces`: if the position
gate holds (first/last child) and the parent carries the attribute,
combine its value into the text content and remove the attribute. -/
def rsPar (k : String) (comb : List Char → List Char → List Char)
    (gate : Bool) (s : List Char) (pa : List XAttr) :
    List Char × List XAttr :=
  if gate then
    match getA pa k with
    | some v => (comb v s, removeA pa k)
    | none => (s, pa)
  else (s, pa)

/-- The text-child step of `DOM::restore_spaces` (`dom.cpp` 256-282):
the four conditionals in source order — previous sibling's
`tf-space-after` prepended after left-trimming the content, parent's
`tf-space-prefix` likewise when this is the first child, next
sibling's `tf-space-before` appended after right-trimming, parent's
`tf-space-suffix` likewise when this is the last child — each
consuming its attribute.  Returns the parent's remaining attributes,
the updated preceding siblings (reversed), and the updated upcoming
siblings. -/
def rsText (pa : List XAttr) (preRev : List XNode) (s : List Char)
    (rest : List XNode) : List XAttr × List XNode × List XNode :=
  let r1 := rsAdj "tf-space-after" (fun v t => v ++ ltrimWS t) s preRev
  let r2 := rsPar "tf-space-prefix" (fun v t => v ++ ltrimWS t)
    preRev.isEmpty r1.1 pa
  let r3 := rsAdj "tf-space-before" (fun v t => rtrimWS t ++ v) r2.1 rest
  let r4 := rsPar "tf-space-suffix" (fun v t => rtrimWS t ++ v)
    rest.isEmpty r3.1 r2.2
  (r4.2, XNode.text r4.1 :: r1.2, r3.2)

mutual

/-- `DOM::restore_spaces` on one node (`dom.cpp` 239-284): process the
children; non-elements have none and are unchanged.  Fuel-based for
kernel computability; `msrL` of the children plus one suffices. -/
def rsNode (prot : List String) : Nat → XNode → XNode
  | 0, n => n
  | fuel + 1, .elem nm a c =>
    let r := rsChildren prot fuel a [] c
    .elem nm r.1 r.2
  | _ + 1, n => n

/-- The child loop of `DOM::restore_spaces`: `pa` is the parent's
attribute list, `preRev` the processed preceding siblings (reversed),
`rest` the upcoming siblings.  A prot-named child is skipped; a
non-text child is recursed into; a text child goes through the four
`rsText` conditionals. -/
def rsChildren (prot : List String) :
    Nat → List XAttr → List XNode → List XNode → List XAttr × List XNode
  | 0, pa, preRev, rest => (pa, preRev.reverse ++ rest)
  | _ + 1, pa, preRev, [] => (pa, preRev.reverse)
  | fuel + 1, pa, preRev, child :: rest =>
    if prot.contains (lowerStr child.xname) then
      rsChildren prot fuel pa (child :: preRev) rest
    else
      match child with
      | .text s =>
        let r := rsText pa preRev s rest
        rsChildren prot fuel r.1 r.2.1 r.2.2
      | other => rsChildren prot fuel pa (rsNode prot fuel other :: preRev) rest

end

/-- Materialize one optional saved-whitespace value as a text node
(`xmlNewText`). -/
def optTexts : Option (List Char) → List XNode
  | some v => [.text v]
  | none => []

/-- One attribute consumption of `DOM::create_spaces`: the value if
the attribute is present, and the attribute list with it removed. -/
def csTake (k : String) (a : List XAttr) : Option (List Char) × List XAttr :=
  match getA a k with
  | some v => (some v, removeA a k)
  | none => (none, a)

/-- The child loop of `DOM::create_spaces` (`dom.cpp` 191-236): skip
prot-named children; for each element-like child (in this model the
elements, since only elements carry attributes) recurse, then
materialize its four `tf-space-*` attributes, in source order, as new
text nodes — `tf-space-after` as next sibling, `tf-space-prefix` as
first child, `tf-space-before` as previous sibling, `tf-space-suffix`
as last child — removing each attribute.  Fuel-based; `msrL` of the
list suffices. -/
def csChildren (prot : List String) : Nat → List XNode → List XNode
  | 0, l => l
  | _ + 1, [] => []
  | fuel + 1, child :: rest =>
    (if prot.contains (lowerStr child.xname) then [child]
     else
       match child with
       | .elem nm a c =>
         let c1 := csChildren prot fuel c
         let t1 := csTake "tf-space-after" a
         let t2 := csTake "tf-space-prefix" t1.2
         let t3 := csTake "tf-space-before" t2.2
         let t4 := csTake "tf-space-suffix" t3.2
         optTexts t3.1 ++
           [XNode.elem nm t4.2 (optTexts t2.1 ++ c1 ++ optTexts t4.1)] ++
           optTexts t1.1
       | other => [other]) ++ csChildren prot fuel rest

/-- The `rx_snip_tf` pass of `inject_docx` (`format-docx.cpp` 300-303)
viewed on the tree: removing every literal `<tf-text>`/`</tf-text>`
tag splices each attribute-less `tf-text` element's children into its
place (with attributes present the open tag would not match the
pattern).  Fuel-based; `msrL` of the list suffices. -/
def stripTfText : Nat → List XNode → List XNode
  | 0, l => l
  | _ + 1, [] => []
  | fuel + 1, child :: rest =>
    (match child with
     | .elem nm a c =>
       if nm = "tf-text" && a.isEmpty then stripTfText fuel c
       else [XNode.elem nm a (stripTfText fuel c)]
     | other => [other]) ++ stripTfText fuel rest

/-- `stripTfText` at its sufficient fuel. -/
def stripAll (l : List XNode) : List XNode := stripTfText (msrL l) l

/-- Modelled from the spec: the public restore operation of §4.1 runs
two passes in order — the in-place restore (`DOM::restore_spaces`),
then materialization of unconsumed attributes (`DOM::create_spaces`);
the zero-argument wrapper itself is declared in the missing `dom.hpp`.
The inject-side `DOM` (`inject.cpp` 227) is constructed without tag
tables, so `prot` is empty. -/
def restoreCreate (docChildren : List XNode) : List XNode :=
  let mid := (rsChildren [] (msrL docChildren + 1) [] [] docChildren).2
  csChildren [] (msrL mid + 1) mid

/-- The name test `xmlStrncmp(name, "tf-", 3) == 0` of `append_attrs`
(`dom.cpp` 57). -/
def startsTf (s : String) : Bool := matchAt "tf-".toList s.data 0

/-- `append_attrs` (`dom.cpp` 48-66) on the attribute list: each
attribute is rendered as ` name="value"` with attribute-style entity
escaping, and with `with_tf == false` (the default) every attribute
whose name starts with `tf-` is skipped.  Namespace declarations are
folded into the attribute list. -/
def appendAttrs (withTf : Bool) : List XAttr → List Char
  | [] => []
  | a :: rest =>
    if withTf == false && startsTf a.name then appendAttrs withTf rest
    else (' ' :: (a.name.data ++ ('=' :: '"' :: (escapeXml true a.val ++ ['"'])))) ++
      appendAttrs withTf rest

/-- The four sidecar attribute names of the Whitespace Preserver. -/
def tfSpaceNames : List String :=
  ["tf-space-after", "tf-space-prefix", "tf-space-before", "tf-space-suffix"]

/-- Well-formedness of the inject-side parsed tree, Boolean form:
every attribute name starting `tf-` is one of the four `tf-space-*`
names, and every element name starting `tf-` is `tf-text` with no
attributes (the shape the extractor writes into `content.xml`). -/
def tfOKL : Nat → List XNode → Bool
  | 0, _ => true
  | _ + 1, [] => true
  | fuel + 1, c :: cs =>
    (match c with
     | .elem nm a ch =>
       (!startsTf nm || (nm == "tf-text" && a.isEmpty)) &&
       a.all (fun x => !startsTf x.name || tfSpaceNames.contains x.name) &&
       tfOKL fuel ch
     | _ => true) && tfOKL fuel cs

/-- `tfOKL` at its sufficient fuel. -/
def tfOK (l : List XNode) : Bool := tfOKL (msrL l) l

/-- Sidecar cleanliness, Boolean form: no element or attribute name
starting `tf-` anywhere in the forest. -/
def tfCleanL : Nat → List XNode → Bool
  | 0, _ => true
  | _ + 1, [] => true
  | fuel + 1, c :: cs =>
    (match c with
     | .elem nm a ch =>
       !startsTf nm && a.all (fun x => !startsTf x.name) && tfCleanL fuel ch
     | _ => true) && tfCleanL fuel cs

/-- `tfCleanL` at its sufficient fuel. -/
def tfClean (l : List XNode) : Bool := tfCleanL (msrL l) l

/-- Well-formedness of the inject-side tree, propositional form
(matches `tfOKL`). -/
inductive OKn : XNode → Prop where
  | text (s : List Char) : OKn (.text s)
  | cdata (s : List Char) : OKn (.cdata s)
  | comment (s : List Char) : OKn (.comment s)
  | elem (nm : String) (a : List XAttr) (children : List XNode)
      (hn : startsTf nm = true → nm = "tf-text" ∧ a = [])
      (ha : ∀ x ∈ a, startsTf x.name = true → x.name ∈ tfSpaceNames)
      (hc : ∀ c ∈ children, OKn c) : OKn (.elem nm a children)

/-- State after `create_spaces`: no attribute name starts `tf-`, and
`tf-`-named elements are still exactly the attribute-less `tf-text`
wrappers. -/
inductive Midn : XNode → Prop where
  | text (s : List Char) : Midn (.text s)
  | cdata (s : List Char) : Midn (.cdata s)
  | comment (s : List Char) : Midn (.comment s)
  | elem (nm : String) (a : List XAttr) (children : List XNode)
      (hn : startsTf nm = true → nm = "tf-text" ∧ a = [])
      (ha : ∀ x ∈ a, startsTf x.name = false)
      (hc : ∀ c ∈ children, Midn c) : Midn (.elem nm a children)

/-- State after the `tf-text` splice: no element or attribute name
starts `tf-`. -/
inductive Cleann : XNode → Prop where
  | text (s : List Char) : Cleann (.text s)
  | cdata (s : List Char) : Cleann (.cdata s)
  | comment (s : List Char) : Cleann (.comment s)
  | elem (nm : String) (a : List XAttr) (children : List XNode)
      (hn : startsTf nm = false)
      (ha : ∀ x ∈ a, startsTf x.name = false)
      (hc : ∀ c ∈ children, Cleann c) : Cleann (.elem nm a children)

/-- Concrete inject-side document for the C6 analysis: `tf-space-*`
sidecar attributes and a `tf-text` wrapper around translated text. -/
def c6doc : List XNode :=
  [.elem "w:body" [⟨"tf-space-prefix", " ".toList⟩]
    [.elem "tf-text" [] [.text "hi".toList],
     .elem "w:r" [⟨"tf-space-after", "  ".toList⟩] [],
     .text " tail ".toList]]

/-!
## Block Extractor (`DOM::extract_blocks`, `dom.cpp` 556-662)

The XXH32 hash (external `xxhash.h`) composed with `base64_url` (the
missing `base64.hpp`) is the parameter `hf`; the stream format's
`block_open`/`block_body`/`block_close` emit each id verbatim, so the
embedding collects the ordered list of allocated block ids together
with the `blocks` counter (a `DOM` member, 0 before the run).  The
marker text written back into the node is not needed for the id
analysis and is not collected.
-/

/-- One decimal digit character. -/
def decDigit (d : Nat) : Char := Char.ofNat (48 + d)

/-- `std::to_string` on the counter: decimal digits, most significant
first.  Fuel-based for kernel computability; the number plus one
suffices as fuel. -/
def natDecF : Nat → Nat → List Char
  | 0, _ => []
  | fuel + 1, n =>
    if n < 10 then [decDigit n]
    else natDecF fuel (n / 10) ++ [decDigit (n % 10)]

/-- `natDecF` at its sufficient fuel. -/
def natDec (n : Nat) : List Char := natDecF (n + 1) n

/-- Decimal value of a digit string (for the roundtrip proof). -/
def decVal (l : List Char) : Nat :=
  l.foldl (fun acc c => acc * 10 + (c.toNat - 48)) 0

/-- The decimal counter in front of a block id's first `-`. -/
def idNum (id : List Char) : Nat :=
  decVal (id.takeWhile (fun c => c ≠ '-'))

/-- `rx_any_alnum` (`[\w\p{L}\p{N}\p{M}]`, `dom.cpp` 75) finds a
match: some character is alphanumeric (with the Basic Latin
restriction used for all ICU classes in this development). -/
def hasAlnum (s : List Char) : Bool := s.any isAlnumAny

/-- A freshly allocated block id (`dom.cpp` 590-595 and 641-646):
the decimal counter, `'-'`, and the base64url-encoded XXH32 hash of
the value. -/
def mkBid (hf : List Char → List Char) (n : Nat) (v : List Char) :
    List Char :=
  natDec n ++ '-' :: hf v

/-- The ids allocated for a run of values starting above the given
counter: the i-th value gets counter `counter + 1 + i`. -/
def mkBids (hf : List Char → List Char) (counter : Nat) :
    List (List Char) → List (List Char)
  | [] => []
  | v :: vs => mkBid hf (counter + 1) v :: mkBids hf (counter + 1) vs

/-- The attribute loop of `DOM::extract_blocks` (`dom.cpp` 579-610):
for each configured attribute name in order, if the element carries it
and its value has alphanumeric content, allocate a block id for the
value.  Returns the new counter and the ids in order. -/
def extAttrs (hf : List Char → List Char) (attrs : List XAttr) :
    List String → Nat → Nat × List (List Char)
  | [], counter => (counter, [])
  | a :: rest, counter =>
    match getA attrs a with
    | some v =>
      if hasAlnum v then
        let r := extAttrs hf attrs rest (counter + 1)
        (r.1, mkBid hf (counter + 1) v :: r.2)
      else extAttrs hf attrs rest counter
    | none => extAttrs hf attrs rest counter

/-- The attribute extraction guard of the child loop: attributes are
inspected only for element-like children. -/
def extElemAttrs (pol : TagPolicy) (hf : List Char → List Char)
    (child : XNode) (counter : Nat) : Nat × List (List Char) :=
  if elementLike child then extAttrs hf child.nattrs pol.tag_attrs counter
  else (counter, [])

/-- The content branch of `DOM::extract_blocks` (`dom.cpp` 620-661):
a non-element child with nonempty content becomes a block when the
`txt` flag is set, the parent carries no `tf-protect` attribute, the
parent's lowered name passes the `tags_parents_direct` filter, and
the content has alphanumeric data. -/
def extTxt (pol : TagPolicy) (hf : List Char → List Char) (txt : Bool)
    (pname : String) (pattrs : List XAttr) (content : List Char)
    (counter : Nat) : Nat × List (List Char) :=
  if !txt then (counter, [])
  else if (getA pattrs "tf-protect").isSome then (counter, [])
  else if !pol.tags_parents_direct.isEmpty &&
      !pol.tags_parents_direct.contains (lowerStr pname) then (counter, [])
  else if hasAlnum content then
    (counter + 1, [mkBid hf (counter + 1) content])
  else (counter, [])

mutual

/-- `DOM::extract_blocks` on one subtree: the entry adjustment makes
every tag a valid parent when no parent tags are configured; only
elements have children to walk. -/
def extNode (pol : TagPolicy) (hf : List Char → List Char) :
    Nat → Bool → XNode → Nat → Nat × List (List Char)
  | 0, _, _, counter => (counter, [])
  | fuel + 1, txt, .elem nm a children, counter =>
    let t := if pol.tags_parents_allow.isEmpty then true else txt
    extChildren pol hf fuel t nm a children counter
  | _ + 1, _, _, counter => (counter, [])

/-- The child loop of `DOM::extract_blocks`: skip prot-named children;
extract attributes of element-like children; then the descent chain in
source order — a `tags_parents_allow` name recurses with `txt = true`,
an element-like child recurses with the inherited `txt`, a non-element
child with content goes through the content branch. -/
def extChildren (pol : TagPolicy) (hf : List Char → List Char) :
    Nat → Bool → String → List XAttr → List XNode → Nat →
      Nat × List (List Char)
  | 0, _, _, _, _, counter => (counter, [])
  | _ + 1, _, _, _, [], counter => (counter, [])
  | fuel + 1, txt, pname, pattrs, child :: rest, counter =>
    if pol.tags_prot.contains (lowerStr child.xname) then
      extChildren pol hf fuel txt pname pattrs rest counter
    else
      let r1 := extElemAttrs pol hf child counter
      let r2 :=
        if pol.tags_parents_allow.contains (lowerStr child.xname) then
          extNode pol hf fuel true child r1.1
        else if elementLike child then
          extNode pol hf fuel txt child r1.1
        else if !child.textContent.isEmpty then
          extTxt pol hf txt pname pattrs child.textContent r1.1
        else (r1.1, [])
      let r3 := extChildren pol hf fuel txt pname pattrs rest r2.1
      (r3.1, r1.2 ++ r2.2 ++ r3.2)

end

/-- The descent chain of the child loop, as a standalone function
(definitionally the branch used inside `extChildren`). -/
def extDescend (pol : TagPolicy) (hf : List Char → List Char)
    (fuel : Nat) (txt : Bool) (pname : String) (pattrs : List XAttr)
    (child : XNode) (counter : Nat) : Nat × List (List Char) :=
  if pol.tags_parents_allow.contains (lowerStr child.xname) then
    extNode pol hf fuel true child counter
  else if elementLike child then
    extNode pol hf fuel txt child counter
  else if !child.textContent.isEmpty then
    extTxt pol hf txt pname pattrs child.textContent counter
  else (counter, [])

/-- The shape of an extraction result: the counter advances by the
number of emitted blocks and the ids are the counter-stamped ids of
the block values, in order. -/
def EmitsFrom (hf : List Char → List Char) (counter : Nat)
    (out : Nat × List (List Char)) : Prop :=
  ∃ vals : List (List Char),
    out.1 = counter + vals.length ∧ out.2 = mkBids hf counter vals

/-- Concrete tree for the C3 analysis: a text node with a leading
whitespace run whose previous sibling is a CDATA section (present in
the spec's own data model), which is not element-like. -/
def c3tree : XNode :=
  .elem "e" [] [.cdata "x".toList, .text " hello".toList]

/-- Concrete tree for the C4 analysis: a pure-whitespace text node
between two CDATA siblings (neither element-like). -/
def c4tree : XNode :=
  .elem "e" [] [.cdata "x".toList, .text "  ".toList, .cdata "y".toList]

/-! ## Lemmas on substring search -/

theorem matchAt_eq_true_iff {pat s : List Char} {j : Nat} :
    matchAt pat s j = true ↔ (s.drop j).take pat.length = pat := by
  simp [matchAt]

theorem matchAt_decomp {pat s : List Char} {j : Nat} (hp : pat ≠ [])
    (h : matchAt pat s j = true) :
    ∃ u v, s = u ++ pat ++ v ∧ u.length = j := by
  rw [matchAt_eq_true_iff] at h
  have hdne : s.drop j ≠ [] := by
    intro h0
    rw [h0] at h
    simp at h
    exact hp h
  have hj : j < s.length := by
    by_contra hc
    exact hdne (List.drop_eq_nil_of_le (Nat.le_of_not_lt hc))
  refine ⟨s.take j, (s.drop j).drop pat.length, ?_, ?_⟩
  · conv_lhs => rw [← List.take_append_drop j s]
    rw [List.append_assoc]
    congr 1
    conv_lhs => rw [← List.take_append_drop pat.length (s.drop j)]
    rw [h]
  · simpa using Nat.le_of_lt hj

theorem matchAt_of_decomp (pat u v : List Char) :
    matchAt pat (u ++ pat ++ v) u.length = true := by
  rw [matchAt_eq_true_iff, List.append_assoc, List.drop_left, List.take_left]

theorem matchAt_getElem {pat s : List Char} {j k : Nat}
    (h : matchAt pat s j = true) (hk : k < pat.length) :
    s[j + k]? = pat[k]? := by
  rw [matchAt_eq_true_iff] at h
  have h1 : ((s.drop j).take pat.length)[k]? = pat[k]? := by rw [h]
  rwa [List.getElem?_take_of_lt hk, List.getElem?_drop] at h1

theorem matchAt_cons_succ {pat : List Char} {c : Char} {cs : List Char} {j : Nat} :
    matchAt pat (c :: cs) (j + 1) = matchAt pat cs j := by
  simp [matchAt]

theorem matchAt_zero_cons {pat : List Char} {c : Char} {cs : List Char} :
    matchAt pat (c :: cs) 0 = ((c :: cs).take pat.length == pat) := by
  simp [matchAt]

theorem findSuf_none_iff {pat s : List Char} :
    findSuf pat s = none ↔ ∀ j, matchAt pat s j = false := by
  induction s with
  | nil =>
    simp only [findSuf]
    split
    · rename_i he
      subst he
      constructor
      · intro h
        simp at h
      · intro h
        have := h 0
        simp [matchAt] at this
    · rename_i hne
      constructor
      · intro _ j
        simp only [matchAt, List.drop_nil, List.take_nil]
        simpa using Ne.symm hne
      · intro _
        trivial
  | cons c cs ih =>
    constructor
    · intro h j
      simp only [findSuf] at h
      split at h
      · exact absurd h (by simp)
      · rename_i hne
        cases j with
        | zero =>
          rw [matchAt_zero_cons]
          simpa using hne
        | succ j =>
          rw [matchAt_cons_succ]
          have h0 : findSuf pat cs = none := by
            cases h1 : findSuf pat cs with
            | none => rfl
            | some b => rw [h1] at h; simp at h
          exact (ih.mp h0) j
    · intro h
      simp only [findSuf]
      split
      · rename_i he
        have := h 0
        rw [matchAt_zero_cons] at this
        simp [he] at this
      · have h0 : findSuf pat cs = none := by
          apply ih.mpr
          intro j
          have := h (j + 1)
          rwa [matchAt_cons_succ] at this
        rw [h0]
        rfl

theorem findSuf_some {pat s : List Char} {b : Nat}
    (h : findSuf pat s = some b) :
    matchAt pat s b = true ∧ ∀ j, j < b → matchAt pat s j = false := by
  induction s generalizing b with
  | nil =>
    simp only [findSuf] at h
    split at h
    · rename_i he
      cases h
      constructor
      · rw [matchAt_eq_true_iff]
        simp [he]
      · intro j hj
        omega
    · simp at h
  | cons c cs ih =>
    simp only [findSuf] at h
    split at h
    · rename_i he
      cases h
      constructor
      · rw [matchAt_zero_cons]
        simpa using he
      · intro j hj
        omega
    · rename_i hne
      cases h1 : findSuf pat cs with
      | none => rw [h1] at h; simp at h
      | some b0 =>
        rw [h1] at h
        simp at h
        obtain ⟨hm, hmin⟩ := ih h1
        constructor
        · rw [← h, matchAt_cons_succ]
          exact hm
        · intro j hj
          cases j with
          | zero =>
            rw [matchAt_zero_cons]
            simpa using hne
          | succ j =>
            rw [matchAt_cons_succ]
            exact hmin j (by omega)

theorem findSuf_of {pat s : List Char} {b : Nat}
    (hb : matchAt pat s b = true)
    (hmin : ∀ j, j < b → matchAt pat s j = false) :
    findSuf pat s = some b := by
  cases h : findSuf pat s with
  | none =>
    have := (findSuf_none_iff.mp h) b
    rw [hb] at this
    exact absurd this (by simp)
  | some b0 =>
    obtain ⟨hm0, hmin0⟩ := findSuf_some h
    rcases Nat.lt_trichotomy b0 b with hlt | heq | hgt
    · have := hmin b0 hlt
      rw [hm0] at this
      exact absurd this (by simp)
    · rw [heq]
    · have := hmin0 b hgt
      rw [hb] at this
      exact absurd this (by simp)

theorem matchAt_drop {pat s : List Char} {i j : Nat} :
    matchAt pat (s.drop i) j = matchAt pat s (i + j) := by
  simp [matchAt, List.drop_drop, Nat.add_comm]

theorem findFrom_none_iff {pat s : List Char} {i : Nat} :
    findFrom pat s i = none ↔ ∀ j, i ≤ j → matchAt pat s j = false := by
  have hmap : findFrom pat s i = none ↔ findSuf pat (s.drop i) = none := by
    unfold findFrom
    cases findSuf pat (s.drop i) <;> simp
  rw [hmap, findSuf_none_iff]
  constructor
  · intro h j hj
    have := h (j - i)
    rwa [matchAt_drop, Nat.add_sub_cancel' hj] at this
  · intro h j
    rw [matchAt_drop]
    exact h (i + j) (Nat.le_add_right i j)

theorem findFrom_some {pat s : List Char} {i e : Nat}
    (h : findFrom pat s i = some e) :
    i ≤ e ∧ matchAt pat s e = true ∧ ∀ j, i ≤ j → j < e → matchAt pat s j = false := by
  unfold findFrom at h
  cases hb : findSuf pat (s.drop i) with
  | none => rw [hb] at h; simp at h
  | some b =>
    rw [hb] at h
    simp only [Option.map_some'] at h
    obtain ⟨hm, hmin⟩ := findSuf_some hb
    have hbe : b + i = e := by simpa using h
    subst hbe
    refine ⟨Nat.le_add_left i b, ?_, ?_⟩
    · rwa [matchAt_drop, Nat.add_comm] at hm
    · intro j hij hje
      have := hmin (j - i) (by omega)
      rwa [matchAt_drop, Nat.add_sub_cancel' hij] at this

theorem findFrom_of {pat s : List Char} {i e : Nat}
    (hie : i ≤ e)
    (hb : matchAt pat s e = true)
    (hmin : ∀ j, i ≤ j → j < e → matchAt pat s j = false) :
    findFrom pat s i = some e := by
  have h1 : findSuf pat (s.drop i) = some (e - i) := by
    apply findSuf_of
    · rwa [matchAt_drop, Nat.add_sub_cancel' hie]
    · intro j hj
      rw [matchAt_drop]
      exact hmin (i + j) (Nat.le_add_right i j) (by omega)
  unfold findFrom
  rw [h1]
  simp only [Option.map_some']
  congr 1
  omega

theorem findFrom_isSome_of_matchAt {pat s : List Char} {i e : Nat}
    (hie : i ≤ e) (hb : matchAt pat s e = true) :
    ∃ e0, findFrom pat s i = some e0 := by
  cases h : findFrom pat s i with
  | none =>
    have := (findFrom_none_iff.mp h) e hie
    rw [hb] at this
    exact absurd this (by simp)
  | some e0 => exact ⟨e0, rfl⟩

theorem matchAt_le_length {pat s : List Char} {j : Nat}
    (h : matchAt pat s j = true) (hp : pat ≠ []) :
    j + pat.length ≤ s.length := by
  obtain ⟨u, v, hs, hu⟩ := matchAt_decomp hp h
  subst hs
  simp only [List.length_append, ← hu]
  omega

theorem matchAt_false_cover {pat s : List Char} {j p : Nat} {c : Char}
    (hc : s[p]? = some c) (hcp : c ∉ pat) (h1 : j ≤ p) (h2 : p < j + pat.length) :
    matchAt pat s j = false := by
  by_contra hcon
  have hm : matchAt pat s j = true := by
    cases h : matchAt pat s j
    · exact absurd h hcon
    · rfl
  have := matchAt_getElem hm (k := p - j) (by omega)
  rw [show j + (p - j) = p by omega, hc] at this
  exact hcp (List.getElem?_mem this.symm)

theorem matchAt_append_inner {pat a b : List Char} {d : Nat}
    (hd : d + pat.length ≤ a.length) :
    matchAt pat (a ++ b) d = matchAt pat a d := by
  simp only [matchAt]
  have h1 : (a ++ b).drop d = a.drop d ++ b :=
    List.drop_append_of_le_length (by omega)
  rw [h1, List.take_append_of_le_length (by simp; omega)]

theorem matchAt_append_right {pat a b : List Char} {d : Nat} :
    matchAt pat (a ++ b) (a.length + d) = matchAt pat b d := by
  simp only [matchAt, List.drop_append]

theorem charsDisjoint_spec {bad s : List Char} (h : charsDisjoint bad s = true)
    {c : Char} (hc : c ∈ s) : c ∉ bad := by
  simp only [charsDisjoint, List.all_eq_true] at h
  have := h c hc
  simpa using this

theorem charsDisjoint_append {bad s t : List Char}
    (hs : charsDisjoint bad s = true) (ht : charsDisjoint bad t = true) :
    charsDisjoint bad (s ++ t) = true := by
  simp only [charsDisjoint, List.all_eq_true] at *
  intro c hc
  rcases List.mem_append.mp hc with h | h
  · exact hs c h
  · exact ht c h

/-! ## C1: block splicing in the injector -/

theorem replPairs_fst_eq_spec (tb te buf : List Char) :
    ∀ fuel s, (replPairs tb te buf fuel s).1 = replPairsSpec tb te buf fuel s := by
  intro fuel
  induction fuel with
  | zero => intro s; rfl
  | succ n ih =>
    intro s
    cases hb : findSuf tb s with
    | none => simp [replPairs, replPairsSpec, hb]
    | some b =>
      cases he : findFrom te s (b + tb.length) with
      | none => simp [replPairs, replPairsSpec, hb, he]
      | some e =>
        simp [replPairs, replPairsSpec, hb, he, ih (s.drop (e + te.length))]

theorem replPairs_found_iff (tb te buf : List Char) (fuel : Nat) (s : List Char) :
    (replPairs tb te buf (fuel + 1) s).2 = true ↔ HasPair tb te s := by
  cases hb : findSuf tb s with
  | none =>
    simp only [replPairs, hb]
    constructor
    · intro h
      simp at h
    · rintro ⟨b, e, hmb, _, _⟩
      have := (findSuf_none_iff.mp hb) b
      rw [hmb] at this
      exact absurd this (by simp)
  | some b =>
    obtain ⟨hbm, hbmin⟩ := findSuf_some hb
    cases he : findFrom te s (b + tb.length) with
    | none =>
      simp only [replPairs, hb, he]
      constructor
      · intro h
        simp at h
      · rintro ⟨b1, e1, hmb1, hme1, hbe1⟩
        have hble : b ≤ b1 := by
          by_contra hc
          have := hbmin b1 (by omega)
          rw [hmb1] at this
          exact absurd this (by simp)
        have := (findFrom_none_iff.mp he) e1 (by omega)
        rw [hme1] at this
        exact absurd this (by simp)
    | some e =>
      obtain ⟨hee, hem, _⟩ := findFrom_some he
      simp only [replPairs, hb, he]
      constructor
      · intro _
        exact ⟨b, e, hbm, hem, hee⟩
      · intro _
        trivial

/-- C1: for every `(id, body)` pair with a non-empty id, the injector
replaces every occurrence of the matching open/close sentinel pair in
the interim content (sentinels included) by the trimmed, entity-escaped
body — its content result equals the spec-side replacement — and its
error flag (an error written to the error stream) is set if and only if
no complete open/close pair for that id exists in the content. -/
theorem inject_block_replaces_and_errors
    (openB openE closeB closeE id body s : List Char) (_hid : id ≠ []) :
    (injectBlock openB openE closeB closeE id body s).1 =
      replPairsSpec (openB ++ id ++ openE) (closeB ++ id ++ closeE)
        (escapeXml false (trimWS body)) (s.length + 1) s ∧
    ((injectBlock openB openE closeB closeE id body s).2 = true ↔
      ¬ HasPair (openB ++ id ++ openE) (closeB ++ id ++ closeE) s) := by
  constructor
  · exact replPairs_fst_eq_spec _ _ _ _ s
  · simp only [injectBlock, Bool.not_eq_eq_eq_not, Bool.not_true]
    rw [← Bool.not_eq_true]
    exact not_congr (replPairs_found_iff _ _ _ s.length s)

theorem c1_block_witness :
    c1id ≠ [] ∧
    ((injectBlock c1oB c1oE c1cB c1cE c1id c1body c1doc).1 =
        replPairsSpec (c1oB ++ c1id ++ c1oE) (c1cB ++ c1id ++ c1cE)
          (escapeXml false (trimWS c1body)) (c1doc.length + 1) c1doc ∧
      ((injectBlock c1oB c1oE c1cB c1cE c1id c1body c1doc).2 = true ↔
        ¬ HasPair (c1oB ++ c1id ++ c1oE) (c1cB ++ c1id ++ c1cE) c1doc)) :=
  ⟨by decide,
   inject_block_replaces_and_errors c1oB c1oE c1cB c1cE c1id c1body c1doc
     (by decide)⟩

/-! ## C10: leftover-marker removal -/

/-- C10 counterexample: the stated precondition (every occurrence of the
begin bytes is followed later by the end bytes, for open and close
sentinels alike) holds of `c10content`, yet the removal loops reach the
branch where the end-marker search fails, which in the source computes
an erase range past the end of the string (modelled by `none`): erasing
the first marker splices a fresh begin-byte occurrence together. -/
theorem removal_npos_reachable :
    followedByEnd c10mb c10me c10content = true ∧
    followedByEnd c10cb c10ce c10content = true ∧
    removeAllMarkers c10mb c10me c10cb c10ce c10content = none := by decide

theorem assemble_append (mb me t0 t : List Char)
    (rest : List (List Char × List Char)) :
    t0 ++ assemble mb me t rest = assemble mb me (t0 ++ t) rest := by
  cases rest with
  | nil => rfl
  | cons p r =>
    cases p with
    | mk i t1 => simp [assemble, List.append_assoc]

theorem textRuns_append (t0 t : List Char)
    (rest : List (List Char × List Char)) :
    t0 ++ textRuns t rest = textRuns (t0 ++ t) rest := by
  cases rest with
  | nil => rfl
  | cons p r =>
    cases p with
    | mk i t1 => simp [textRuns, List.append_assoc]

theorem matchAt_false_disjoint {pat t0 : List Char} {j : Nat} (hp : pat ≠ [])
    (hd : ∀ c ∈ t0, c ∉ pat) : matchAt pat t0 j = false := by
  cases h : matchAt pat t0 j with
  | false => rfl
  | true =>
    exfalso
    have hle := matchAt_le_length h hp
    have hpl : 0 < pat.length := List.length_pos.mpr hp
    have hj : j < t0.length := by omega
    have hcov := matchAt_false_cover (List.getElem?_eq_getElem hj)
      (hd _ (List.getElem_mem hj)) (Nat.le_refl j) (by omega)
    rw [h] at hcov
    simp at hcov

theorem matchAt_false_left_disjoint {pat t0 X : List Char} {j : Nat}
    (hp : pat ≠ []) (hj : j < t0.length) (hd : ∀ c ∈ t0, c ∉ pat) :
    matchAt pat (t0 ++ X) j = false := by
  have hpl : 0 < pat.length := List.length_pos.mpr hp
  refine matchAt_false_cover (p := j) ?_ (hd _ (List.getElem_mem hj))
    (Nat.le_refl j) (by omega)
  rw [List.getElem?_append_left hj]
  exact List.getElem?_eq_getElem hj

/-- One iteration of the removal loop on a well-formed alternation
consumes exactly the first marker. -/
theorem removeMarkers_step (mb me : List Char) (t0 i t : List Char)
    (rest : List (List Char × List Char)) (fuel : Nat)
    (hmb : mb ≠ []) (hme : me ≠ []) (hme3 : me.length = 3)
    (hinf : findSuf me mb = none)
    (ht0 : charsDisjoint (mb ++ me) t0 = true)
    (hi : i ≠ []) (hic : charsDisjoint (mb ++ me) i = true) :
    removeMarkers mb me (fuel + 1) (assemble mb me t0 ((i, t) :: rest)) =
      removeMarkers mb me fuel (assemble mb me (t0 ++ t) rest) := by
  have hipos : 0 < i.length := List.length_pos.mpr hi
  have hmbpos : 0 < mb.length := List.length_pos.mpr hmb
  have hcontent : assemble mb me t0 ((i, t) :: rest) =
      t0 ++ (mb ++ (i ++ (me ++ assemble mb me t rest))) := by
    simp [assemble, List.append_assoc]
  rw [hcontent]
  have hfind1 : findSuf mb (t0 ++ (mb ++ (i ++ (me ++ assemble mb me t rest)))) =
      some t0.length := by
    apply findSuf_of
    · have h2 := matchAt_of_decomp mb t0 (i ++ (me ++ assemble mb me t rest))
      rwa [List.append_assoc] at h2
    · intro j hj
      exact matchAt_false_left_disjoint hmb hj
        (fun c hcc hcm =>
          charsDisjoint_spec ht0 hcc (List.mem_append_left me hcm))
  have htarg : matchAt me (t0 ++ (mb ++ (i ++ (me ++ assemble mb me t rest))))
      (t0.length + mb.length + i.length) = true := by
    have h2 := matchAt_of_decomp me (t0 ++ (mb ++ i)) (assemble mb me t rest)
    have h3 : (t0 ++ (mb ++ i)) ++ me ++ assemble mb me t rest =
        t0 ++ (mb ++ (i ++ (me ++ assemble mb me t rest))) := by
      simp [List.append_assoc]
    have h4 : (t0 ++ (mb ++ i)).length = t0.length + mb.length + i.length := by
      simp [Nat.add_assoc]
    rwa [h3, h4] at h2
  have hfind2 : findFrom me (t0 ++ (mb ++ (i ++ (me ++ assemble mb me t rest))))
      t0.length = some (t0.length + mb.length + i.length) := by
    apply findFrom_of (by omega) htarg
    intro j hj1 hj2
    by_cases hcase : j + me.length ≤ t0.length + mb.length
    · -- the probe lies inside the begin bytes
      obtain ⟨d, hd⟩ : ∃ d, j = t0.length + d := ⟨j - t0.length, by omega⟩
      subst hd
      rw [matchAt_append_right, matchAt_append_inner (by omega)]
      exact (findSuf_none_iff.mp hinf) d
    · -- the probe covers a character of the id
      have hassoc : t0 ++ (mb ++ (i ++ (me ++ assemble mb me t rest))) =
          (t0 ++ mb) ++ (i ++ (me ++ assemble mb me t rest)) := by
        simp [List.append_assoc]
      have hmepos : 0 < me.length := List.length_pos.mpr hme
      by_cases hj3 : t0.length + mb.length ≤ j
      · have hklt : j - (t0.length + mb.length) < i.length := by omega
        refine matchAt_false_cover (p := j) ?_
          (fun hmem => charsDisjoint_spec hic (List.getElem_mem hklt)
            (List.mem_append_right mb hmem)) (Nat.le_refl j) (by omega)
        rw [hassoc, List.getElem?_append_right (by simp; omega)]
        have h5 : j - (t0 ++ mb).length = j - (t0.length + mb.length) := by simp
        rw [h5, List.getElem?_append_left hklt]
        exact List.getElem?_eq_getElem hklt
      · have hklt : 0 < i.length := hipos
        refine matchAt_false_cover (p := t0.length + mb.length) ?_
          (fun hmem => charsDisjoint_spec hic (List.getElem_mem hklt)
            (List.mem_append_right mb hmem)) (by omega) (by omega)
        rw [hassoc, List.getElem?_append_right (by simp)]
        have h5 : t0.length + mb.length - (t0 ++ mb).length = 0 := by simp
        rw [h5, List.getElem?_append_left hklt]
        exact List.getElem?_eq_getElem hklt
  have htake : (t0 ++ (mb ++ (i ++ (me ++ assemble mb me t rest)))).take t0.length
      = t0 := List.take_left t0 _
  have hdrop : (t0 ++ (mb ++ (i ++ (me ++ assemble mb me t rest)))).drop
      (t0.length + mb.length + i.length + 3) = assemble mb me t rest := by
    have h1 : t0 ++ (mb ++ (i ++ (me ++ assemble mb me t rest))) =
        (t0 ++ (mb ++ (i ++ me))) ++ assemble mb me t rest := by
      simp [List.append_assoc]
    have h2 : t0.length + mb.length + i.length + 3 =
        (t0 ++ (mb ++ (i ++ me))).length := by
      simp [hme3]
      omega
    rw [h1, h2, List.drop_left]
  simp only [removeMarkers, hfind1, hfind2, htake, hdrop]
  rw [assemble_append]

/-- C10 amended: each leftover-marker removal loop, run on content that
is an alternation of sentinel-free text runs and complete markers
(begin bytes, a nonempty sentinel-free id, end bytes), terminates
within one iteration per marker, removes exactly the markers (leaving
the text runs and everything between markers), and never reaches the
failing end-search branch whose erase range would exceed the string. -/
theorem removal_on_alternation (mb me : List Char)
    (hmb : mb ≠ []) (hme : me ≠ []) (hme3 : me.length = 3)
    (hinf : findSuf me mb = none) :
    ∀ (segs : List (List Char × List Char)) (t0 : List Char) (fuel : Nat),
      altOK mb me t0 segs = true → segs.length < fuel →
      removeMarkers mb me fuel (assemble mb me t0 segs) =
        some (textRuns t0 segs) := by
  intro segs
  induction segs with
  | nil =>
    intro t0 fuel hok hfuel
    cases fuel with
    | zero => omega
    | succ f =>
      have hnone : findSuf mb t0 = none := by
        apply findSuf_none_iff.mpr
        intro j
        exact matchAt_false_disjoint hmb
          (fun c hcc hcm =>
            charsDisjoint_spec hok hcc (List.mem_append_left me hcm))
      simp [assemble, textRuns, removeMarkers, hnone]
  | cons p rest ih =>
    intro t0 fuel hok hfuel
    cases p with
    | mk i t =>
      simp only [altOK, Bool.and_eq_true, Bool.not_eq_true'] at hok
      obtain ⟨⟨⟨ht0, hi⟩, hic⟩, hrest⟩ := hok
      have hine : i ≠ [] := by
        intro h0
        rw [h0] at hi
        simp at hi
      cases fuel with
      | zero => omega
      | succ f =>
        rw [removeMarkers_step mb me t0 i t rest f hmb hme hme3 hinf ht0 hine hic]
        rw [ih (t0 ++ t) f (by
          cases rest with
          | nil =>
            simp only [altOK]
            exact charsDisjoint_append ht0 hrest
          | cons q r =>
            cases q with
            | mk i2 t2 =>
              simp only [altOK, Bool.and_eq_true] at hrest ⊢
              obtain ⟨⟨⟨h1, h2⟩, h3⟩, h4⟩ := hrest
              exact ⟨⟨⟨charsDisjoint_append ht0 h1, h2⟩, h3⟩, h4⟩)
          (by simpa using Nat.lt_of_succ_lt_succ hfuel)]
        simp only [textRuns, textRuns_append]

/-- Closed instance for the amended C10 statement. -/
theorem removal_on_alternation_witness :
    c10mb ≠ [] ∧ c10me ≠ [] ∧ c10me.length = 3 ∧
    findSuf c10me c10mb = none ∧
    altOK c10mb c10me "A".toList [("q".toList, "B".toList)] = true ∧
    (1 < 2) ∧
    removeMarkers c10mb c10me 2
        (assemble c10mb c10me "A".toList [("q".toList, "B".toList)]) =
      some (textRuns "A".toList [("q".toList, "B".toList)]) :=
  ⟨by decide, by decide, by decide, by decide, by decide, by decide,
   removal_on_alternation c10mb c10me (by decide) (by decide) (by decide)
     (by decide) [("q".toList, "B".toList)] "A".toList 2 (by decide) (by decide)⟩

/-! ## C2: Style Cleanup idempotence -/

/-- C2 counterexample: on the interim string `c2str` (letters before a
span that itself starts with letters and contains a nested span), one
application of Style Cleanup moves the outer letter prefix inside the
outer span; a second application then moves the grown letter run inside
the nested span, so running cleanup twice differs from running it
once. -/
theorem cleanup_not_idempotent :
    cleanup_styles (cleanup_styles c2str) ≠ cleanup_styles c2str := by decide

theorem delimFree_not_OB {s : List Char} (h : delimFree s = true) : tfiOB ∉ s := by
  intro hm
  simp only [delimFree, List.all_eq_true] at h
  have := h tfiOB hm
  simp [isDelim] at this

theorem delimFree_not_C {s : List Char} (h : delimFree s = true) : tfiC ∉ s := by
  intro hm
  simp only [delimFree, List.all_eq_true] at h
  have := h tfiC hm
  simp [isDelim] at this

theorem mAlphaPre_none {s : List Char} (h : tfiOB ∉ s) : mAlphaPre s = none := by
  simp only [mAlphaPre]
  split
  · rfl
  · cases hdw : s.dropWhile isLNM with
    | nil => rfl
    | cons c r2 =>
      have hc : c ∈ s :=
        (List.dropWhile_sublist isLNM).mem (hdw ▸ List.mem_cons_self c r2)
      have hcne : c ≠ tfiOB := fun he => h (he ▸ hc)
      simp [hcne]

theorem mAlphaSuf_none {s : List Char} (h : tfiC ∉ s) : mAlphaSuf s = none := by
  cases s with
  | nil => rfl
  | cons c cs =>
    simp only [mAlphaSuf]
    split
    · rfl
    · cases hdw : cs.dropWhile isLM with
      | nil => rfl
      | cons d r2 =>
        have hd : d ∈ cs :=
          (List.dropWhile_sublist isLM).mem (hdw ▸ List.mem_cons_self d r2)
        have hdne : d ≠ tfiC := fun he => h (he ▸ List.mem_cons_of_mem c hd)
        simp [hdne]

theorem mSpcPre_none {s : List Char} (h : tfiOB ∉ s) : mSpcPre s = none := by
  cases s with
  | nil => rfl
  | cons c cs =>
    simp only [mSpcPre]
    have hcne : c ≠ tfiOB := fun he => h (he ▸ List.mem_cons_self c cs)
    simp [hcne]

theorem mSpcSuf_none {s : List Char} (h : tfiC ∉ s) : mSpcSuf s = none := by
  simp only [mSpcSuf]
  split
  · rfl
  · cases hdw : s.dropWhile isWS with
    | nil => rfl
    | cons d r2 =>
      have hd : d ∈ s :=
        (List.dropWhile_sublist isWS).mem (hdw ▸ List.mem_cons_self d r2)
      have hdne : d ≠ tfiC := fun he => h (he ▸ hd)
      simp [hdne]

theorem mMerge_none {s : List Char} (h : tfiOB ∉ s) : mMerge s = none := by
  cases s with
  | nil => rfl
  | cons c cs =>
    simp only [mMerge]
    have hcne : c ≠ tfiOB := fun he => h (he ▸ List.mem_cons_self c cs)
    simp [hcne]

theorem delimFree_tail {c : Char} {cs : List Char}
    (h : delimFree (c :: cs) = true) : delimFree cs = true := by
  simp only [delimFree, List.all_cons, Bool.and_eq_true] at h
  exact h.2

theorem scanF_id_of_none (f : List Char → Option (List Char × List Char))
    (hf : ∀ s, delimFree s = true → f s = none) :
    ∀ fuel s, delimFree s = true → scanF f fuel s = s := by
  intro fuel
  induction fuel with
  | zero => intro s _; rfl
  | succ n ih =>
    intro s hs
    cases s with
    | nil => rfl
    | cons c cs =>
      simp only [scanF, hf (c :: cs) hs]
      rw [ih cs (delimFree_tail hs)]

theorem cleanup_id_of_delimFree {s : List Char} (h : delimFree s = true) :
    cleanup_styles s = s := by
  have e1 : runScan mAlphaPre s = s :=
    scanF_id_of_none mAlphaPre (fun t ht => mAlphaPre_none (delimFree_not_OB ht))
      s.length s h
  have e2 : runScan mAlphaSuf s = s :=
    scanF_id_of_none mAlphaSuf (fun t ht => mAlphaSuf_none (delimFree_not_C ht))
      s.length s h
  have e3 : runScan mSpcPre s = s :=
    scanF_id_of_none mSpcPre (fun t ht => mSpcPre_none (delimFree_not_OB ht))
      s.length s h
  have e4 : runScan mSpcSuf s = s :=
    scanF_id_of_none mSpcSuf (fun t ht => mSpcSuf_none (delimFree_not_C ht))
      s.length s h
  have e5 : runScan mMerge s = s :=
    scanF_id_of_none mMerge (fun t ht => mMerge_none (delimFree_not_OB ht))
      s.length s h
  unfold cleanup_styles
  rw [show runScan mAlphaPre s = s from e1, e2, e3, e4, e5]

/-- C2 amended: running the Style Cleanup sequence twice yields the same
string as running it once on strings containing none of the inline
delimiter characters U+E011-U+E013 (cleanup is the identity there); on
general interim strings a second application can differ, because
alphabetic prefix migration over nested spans moves the letter run one
nesting level further per application. -/
theorem cleanup_idempotent_delimFree {s : List Char} (h : delimFree s = true) :
    cleanup_styles (cleanup_styles s) = cleanup_styles s := by
  rw [cleanup_id_of_delimFree h, cleanup_id_of_delimFree h]

/-- Closed instance for the amended C2 statement. -/
theorem cleanup_idempotent_witness :
    delimFree "ab cd".toList = true ∧
    cleanup_styles (cleanup_styles "ab cd".toList) =
      cleanup_styles "ab cd".toList :=
  ⟨by decide, cleanup_idempotent_delimFree (by decide)⟩

/-! ## C9: inline expansion with unknown style ids -/

theorem takeWhile_append_all {p : Char → Bool} {a b : List Char}
    (ha : ∀ c ∈ a, p c = true) :
    (a ++ b).takeWhile p = a ++ b.takeWhile p := by
  induction a with
  | nil => simp
  | cons c cs ih =>
    simp only [List.cons_append, List.takeWhile_cons]
    rw [ha c (List.mem_cons_self c cs)]
    simp only [if_true]
    rw [ih (fun d hd => ha d (List.mem_cons_of_mem c hd))]

theorem dropWhile_append_all {p : Char → Bool} {a b : List Char}
    (ha : ∀ c ∈ a, p c = true) :
    (a ++ b).dropWhile p = b.dropWhile p := by
  induction a with
  | nil => simp
  | cons c cs ih =>
    simp only [List.cons_append, List.dropWhile_cons]
    rw [ha c (List.mem_cons_self c cs)]
    simp only [if_true]
    exact ih (fun d hd => ha d (List.mem_cons_of_mem c hd))

theorem takeWhile_cons_true {p : Char → Bool} {c : Char} {cs : List Char}
    (h : p c = true) : (c :: cs).takeWhile p = c :: cs.takeWhile p := by
  simp [List.takeWhile_cons, h]

theorem takeWhile_cons_false {p : Char → Bool} {c : Char} {cs : List Char}
    (h : p c = false) : (c :: cs).takeWhile p = [] := by
  simp [List.takeWhile_cons, h]

theorem dropWhile_cons_true {p : Char → Bool} {c : Char} {cs : List Char}
    (h : p c = true) : (c :: cs).dropWhile p = cs.dropWhile p := by
  simp [List.dropWhile_cons, h]

theorem dropWhile_cons_false {p : Char → Bool} {c : Char} {cs : List Char}
    (h : p c = false) : (c :: cs).dropWhile p = c :: cs := by
  simp [List.dropWhile_cons, h]

theorem splitLastColon_exact {kind id : List Char} (hk : kind ≠ [])
    (hidne : id ≠ []) (hidC : ∀ c ∈ id, c ≠ ':') :
    splitLastColon (kind ++ (':' :: id)) = some (kind, id) := by
  simp only [splitLastColon]
  have hrev : (kind ++ (':' :: id)).reverse =
      id.reverse ++ (':' :: kind.reverse) := by
    rw [List.reverse_append, List.reverse_cons, List.append_assoc]
    simp
  rw [hrev]
  have hall : ∀ c ∈ id.reverse, (decide (c ≠ ':')) = true := by
    intro c hc
    simp only [decide_eq_true_eq]
    exact hidC c (List.mem_reverse.mp hc)
  rw [takeWhile_append_all hall, dropWhile_append_all hall]
  simp only [List.takeWhile_cons, List.dropWhile_cons]
  simp [hidne, hk]

theorem parseInline_exact {kind id body q : List Char}
    (hk : kind ≠ []) (hkOE : ∀ c ∈ kind, c ≠ tfiOE)
    (hidne : id ≠ []) (hidOE : ∀ c ∈ id, c ≠ tfiOE) (hidC : ∀ c ∈ id, c ≠ ':')
    (hbody : ∀ c ∈ body, isDelim c = false) :
    parseInline (kind ++ (':' :: (id ++ (tfiOE :: (body ++ (tfiC :: q)))))) =
      some (kind, id, body, q) := by
  have hkOE2 : ∀ c ∈ kind, (decide (c ≠ tfiOE)) = true := by
    intro c hc
    simp only [decide_eq_true_eq]
    exact hkOE c hc
  have hidOE2 : ∀ c ∈ id, (decide (c ≠ tfiOE)) = true := by
    intro c hc
    simp only [decide_eq_true_eq]
    exact hidOE c hc
  have hbody2 : ∀ c ∈ body, (!isDelim c) = true := by
    intro c hc
    rw [hbody c hc]
    rfl
  have hchunk :
      (kind ++ (':' :: (id ++ (tfiOE :: (body ++ (tfiC :: q)))))).takeWhile
        (fun x => decide (x ≠ tfiOE)) = kind ++ (':' :: id) := by
    rw [takeWhile_append_all hkOE2, takeWhile_cons_true (by decide),
      takeWhile_append_all hidOE2, takeWhile_cons_false (by decide)]
    simp
  have hdropw :
      (kind ++ (':' :: (id ++ (tfiOE :: (body ++ (tfiC :: q)))))).dropWhile
        (fun x => decide (x ≠ tfiOE)) = tfiOE :: (body ++ (tfiC :: q)) := by
    rw [dropWhile_append_all hkOE2, dropWhile_cons_true (by decide),
      dropWhile_append_all hidOE2, dropWhile_cons_false (by decide)]
  simp only [parseInline, hchunk, hdropw]
  have hne : kind ++ (':' :: id) ≠ [] := by
    intro h0
    have := congrArg List.length h0
    simp at this
  rw [if_neg hne]
  rw [splitLastColon_exact hk hidne hidC]
  have hbtake : (body ++ (tfiC :: q)).takeWhile (fun x => !isDelim x) = body := by
    rw [takeWhile_append_all hbody2, takeWhile_cons_false (by decide)]
    simp
  have hbdrop : (body ++ (tfiC :: q)).dropWhile (fun x => !isDelim x) =
      tfiC :: q := by
    rw [dropWhile_append_all hbody2, dropWhile_cons_false (by decide)]
  simp [hbtake, hbdrop]

theorem expInl_free {g : List Char → List Char → List Char × List Char}
    {s : List Char} (h : ∀ c ∈ s, c ≠ tfiOB) :
    ∀ n, expInl g n s = (s, [], false) := by
  induction s with
  | nil => intro n; cases n <;> rfl
  | cons c cs ih =>
    intro n
    cases n with
    | zero => rfl
    | succ m =>
      simp only [expInl, if_neg (h c (List.mem_cons_self c cs))]
      rw [ih (fun d hd => h d (List.mem_cons_of_mem c hd)) m]

theorem expInl_append_free {g : List Char → List Char → List Char × List Char}
    {pre r : List Char} (h : ∀ c ∈ pre, c ≠ tfiOB) :
    ∀ n, expInl g (pre.length + n) (pre ++ r) =
      (pre ++ (expInl g n r).1, (expInl g n r).2.1, (expInl g n r).2.2) := by
  induction pre with
  | nil => intro n; simp
  | cons c cs ih =>
    intro n
    simp only [List.cons_append, List.length_cons]
    rw [show cs.length + 1 + n = (cs.length + n) + 1 by omega]
    simp only [expInl, if_neg (h c (List.mem_cons_self c cs))]
    rw [ih (fun d hd => h d (List.mem_cons_of_mem c hd)) n]

theorem expInl_step {g : List Char → List Char → List Char × List Char}
    {rest kind id body post : List Char} {n : Nat}
    (hparse : parseInline rest = some (kind, id, body, post))
    (hg : g kind id = ([], [])) :
    expInl g (n + 1) (tfiOB :: rest) =
      (body ++ (expInl g n post).1,
       (kind, id) :: (expInl g n post).2.1,
       true) := by
  simp [expInl, hparse, hg]

theorem expProt_free {g : List Char → List Char → List Char × List Char}
    {s : List Char} (h : ∀ c ∈ s, c ≠ tfpOB) :
    ∀ n, expProt g n s = (s, [], false) := by
  induction s with
  | nil => intro n; cases n <;> rfl
  | cons c cs ih =>
    intro n
    cases n with
    | zero => rfl
    | succ m =>
      simp only [expProt, if_neg (h c (List.mem_cons_self c cs))]
      rw [ih (fun d hd => h d (List.mem_cons_of_mem c hd)) m]

theorem not_tfiOB_of_isDelim_false {c : Char} (h : isDelim c = false) :
    c ≠ tfiOB := by
  intro he
  subst he
  simp [isDelim] at h

/-- C9: during inline-delimiter expansion, a span whose style lookup
returns empty open and empty close markup is logged to the error stream
(modelled as the `(kind, id)` log entry), the span is still replaced by
`open ++ body ++ close` — so the body is preserved with empty markup
around it — and processing continues without aborting: the surrounding
text is kept and the loop reaches its fixpoint normally. -/
theorem expand_unknown_style_preserves_body
    (g : List Char → List Char → List Char × List Char)
    (pre kind id body post : List Char) (fuel : Nat)
    (hpreOB : ∀ c ∈ pre, c ≠ tfiOB) (hprePB : ∀ c ∈ pre, c ≠ tfpOB)
    (hk : kind ≠ []) (hkOE : ∀ c ∈ kind, c ≠ tfiOE)
    (hidne : id ≠ []) (hidOE : ∀ c ∈ id, c ≠ tfiOE) (hidC : ∀ c ∈ id, c ≠ ':')
    (hbody : ∀ c ∈ body, isDelim c = false) (hbodyPB : ∀ c ∈ body, c ≠ tfpOB)
    (hpostOB : ∀ c ∈ post, c ≠ tfiOB) (hpostPB : ∀ c ∈ post, c ≠ tfpOB)
    (hg : g kind id = ([], [])) :
    expandLoop g (fuel + 2)
        (pre ++ (tfiOB ::
          (kind ++ (':' :: (id ++ (tfiOE :: (body ++ (tfiC :: post)))))))) [] =
      (pre ++ (body ++ post), [(kind, id)]) := by
  have hparse := parseInline_exact (q := post) hk hkOE hidne hidOE hidC hbody
  have hnewOB : ∀ c ∈ pre ++ (body ++ post), c ≠ tfiOB := by
    intro c hc
    rcases List.mem_append.mp hc with h1 | h1
    · exact hpreOB c h1
    · rcases List.mem_append.mp h1 with h2 | h2
      · exact not_tfiOB_of_isDelim_false (hbody c h2)
      · exact hpostOB c h2
  have hnewPB : ∀ c ∈ pre ++ (body ++ post), c ≠ tfpOB := by
    intro c hc
    rcases List.mem_append.mp hc with h1 | h1
    · exact hprePB c h1
    · rcases List.mem_append.mp h1 with h2 | h2
      · exact hbodyPB c h2
      · exact hpostPB c h2
  have hpass1 : expandPass g
      (pre ++ (tfiOB ::
        (kind ++ (':' :: (id ++ (tfiOE :: (body ++ (tfiC :: post)))))))) =
      (pre ++ (body ++ post), [(kind, id)], true) := by
    unfold expandPass
    have hlen : (pre ++ (tfiOB ::
        (kind ++ (':' :: (id ++ (tfiOE :: (body ++ (tfiC :: post)))))))).length =
        pre.length + ((kind ++ (':' :: (id ++ (tfiOE ::
          (body ++ (tfiC :: post)))))).length + 1) := by
      simp
    rw [hlen]
    rw [expInl_append_free hpreOB]
    rw [expInl_step hparse hg]
    rw [expInl_free hpostOB]
    simp only
    rw [expProt_free hnewPB]
    simp
  have hpass2 : expandPass g (pre ++ (body ++ post)) =
      (pre ++ (body ++ post), [], false) := by
    unfold expandPass
    rw [expInl_free hnewOB]
    simp only
    rw [expProt_free hnewPB]
    simp
  rw [show fuel + 2 = (fuel + 1) + 1 by omega]
  simp only [expandLoop, hpass1]
  simp only [expandLoop, hpass2]
  rfl

/-- Closed instance for C9. -/
theorem expand_unknown_style_witness :
    (∀ c ∈ "p ".toList, c ≠ tfiOB) ∧
    expandLoop (fun _ _ => ([], []))
        2
        ("p ".toList ++ (tfiOB ::
          ("em".toList ++ (':' :: ("7".toList ++ (tfiOE ::
            ("Body".toList ++ (tfiC :: " q".toList)))))))) [] =
      ("p ".toList ++ ("Body".toList ++ " q".toList),
       [("em".toList, "7".toList)]) :=
  ⟨by decide,
   expand_unknown_style_preserves_body (fun _ _ => ([], []))
     "p ".toList "em".toList "7".toList "Body".toList " q".toList 0
     (by decide) (by decide) (by decide) (by decide) (by decide) (by decide)
     (by decide) (by decide) (by decide) (by decide) (by decide) rfl⟩

/-! ## C8: promotion after an inline close -/

/-- C8 counterexample: with a nested span inside the preceding span,
the close-context branch of `protect_to_styles` wraps from the LAST
inline-open delimiter (`ns.rfind(TFI_OPEN_B)`, here the nested `i:2`
open), not from the open delimiter of the complete span whose close
delimiter precedes the region (the outer `b:1` open) as the claim
states — the two results differ. -/
theorem promote_wraps_last_open_not_matching :
    blockStartT c8ns = false ∧ blockEndT ['W'] = false ∧ ifxT c8ns = false ∧
    pfxStyleT c8ns = true ∧
    handleProt c8sty c8ns "<br/>".toList ['W'] ≠
      claimWrapC8 c8sty c8ns "<br/>".toList ['W'] := by decide

/-- C8 amended: whenever the text preceding a tf-protect region ends
with the inline-close delimiter U+E013 followed by optional whitespace
and the earlier context branches do not apply (the preceding text does
not end at a block open, the following text does not start at a block
close, the preceding text does not end with an inline-open sequence), a
style of kind P with empty open markup and close markup equal to the
protected text is allocated, and the suffix of the preceding text from
its last inline-open delimiter onward — which coincides with the
complete preceding span only when that span contains no nested span —
is wrapped in a new inline span referencing that P style; the remaining
input is untouched. -/
theorem promote_after_close_wraps_from_last_open
    (sty : List Char → List Char → List Char → List Char)
    (ns prot suffix : List Char) (k : Nat)
    (h1 : blockStartT ns = false) (h2 : blockEndT suffix = false)
    (h3 : ifxT ns = false) (h4 : pfxStyleT ns = true)
    (hk : rfindChar tfiOB ns = some k) :
    handleProt sty ns prot suffix =
      some (ns.take k ++ (tfiOB :: 'P' :: ':' :: sty ['P'] [] prot ++ [tfiOE]) ++
        ns.drop k ++ [tfiC], suffix) := by
  simp only [handleProt, h1, h2, h3, h4, hk]
  rfl

/-- Closed instance for the amended C8 statement. -/
theorem promote_after_close_witness :
    blockStartT c8ns = false ∧ blockEndT ['W'] = false ∧ ifxT c8ns = false ∧
    pfxStyleT c8ns = true ∧ rfindChar tfiOB c8ns = some 6 ∧
    handleProt c8sty c8ns "<br/>".toList ['W'] =
      some (c8ns.take 6 ++
        (tfiOB :: 'P' :: ':' :: c8sty ['P'] [] "<br/>".toList ++ [tfiOE]) ++
        c8ns.drop 6 ++ [tfiC], ['W']) :=
  ⟨by decide, by decide, by decide, by decide, by decide,
   promote_after_close_wraps_from_last_open c8sty c8ns "<br/>".toList ['W'] 6
     (by decide) (by decide) (by decide) (by decide) (by decide)⟩

/-! ## C3 and C4: the whitespace-save anchors -/

/-- C3 counterexample: in `c3tree` the text node ` hello` is not pure
whitespace and begins with a whitespace run, and its previous sibling
(a CDATA section) is not element-like; the claim then demands the run
be recorded as the parent's `tf-space-prefix`, but `save_spaces` leaves
the tree unchanged — the run is recorded nowhere. -/
theorem save_spaces_drops_run_nonelement_prev :
    blankOnly " hello".toList = false ∧
    blankHead " hello".toList ≠ [] ∧
    elementLike (.cdata "x".toList) = false ∧
    save_spaces [] c3tree = c3tree ∧
    getAttr c3tree "tf-space-prefix" = none :=
  ⟨by decide, by decide, by decide, rfl, by decide⟩

/-- C3 amended: for a text node that is not pure whitespace but begins
with a whitespace run, the run is recorded as the previous sibling's
`tf-space-after` when that sibling is element-like; when there is no
previous sibling it is recorded as the parent's `tf-space-prefix`; when
a previous sibling exists but is not element-like the run is not
recorded anywhere.  The first conjunct anchors the placement functions
in the `save_spaces` child loop. -/
theorem save_spaces_leading_run (prot : List String) (fuel : Nat)
    (pa : List XAttr) (done rest : List XNode) (s : List Char)
    (hname : prot.contains "text" = false)
    (hnb : blankOnly s = false) (hhd : blankHead s ≠ []) :
    (ssChildren prot (fuel + 1) pa done (.text s :: rest) =
      ssChildren prot fuel
        (tailPlace (leadPlace pa done (blankHead s)).1 rest (blankTail s)).1
        (.text s :: (leadPlace pa done (blankHead s)).2)
        (tailPlace (leadPlace pa done (blankHead s)).1 rest (blankTail s)).2) ∧
    (done = [] → leadPlace pa done (blankHead s) =
      (setAttr pa "tf-space-prefix" (blankHead s), done)) ∧
    (∀ d ds, done = d :: ds → elementLike d = true →
      leadPlace pa done (blankHead s) =
        (pa, setProp d "tf-space-after" (blankHead s) :: ds)) ∧
    (∀ d ds, done = d :: ds → elementLike d = false →
      leadPlace pa done (blankHead s) = (pa, done)) := by
  refine ⟨?_, ?_, ?_, ?_⟩
  · simp only [ssChildren, XNode.xname, XNode.isText]
    rw [show (lowerStr "text") = "text" from by decide]
    simp [hname, hnb, XNode.textContent]
    intro hmem
    simp at hname
    exact absurd hmem hname
  · intro h0
    subst h0
    simp [leadPlace, hhd]
  · intro d ds h0 hel
    subst h0
    simp [leadPlace, hhd, hel]
  · intro d ds h0 hel
    subst h0
    simp [leadPlace, hhd, hel]

/-- Closed instance for the amended C3 statement. -/
theorem save_spaces_leading_run_witness :
    (([] : List String).contains "text" = false) ∧
    blankOnly " h".toList = false ∧ blankHead " h".toList ≠ [] ∧
    ((ssChildren [] 1 [] [.cdata "x".toList] [.text " h".toList] =
      ssChildren [] 0
        (tailPlace (leadPlace [] [.cdata "x".toList] (blankHead " h".toList)).1 []
          (blankTail " h".toList)).1
        (.text " h".toList :: (leadPlace [] [.cdata "x".toList] (blankHead " h".toList)).2)
        (tailPlace (leadPlace [] [.cdata "x".toList] (blankHead " h".toList)).1 []
          (blankTail " h".toList)).2) ∧
    (([.cdata "x".toList] : List XNode) = [] →
      leadPlace [] [.cdata "x".toList] (blankHead " h".toList) =
        (setAttr [] "tf-space-prefix" (blankHead " h".toList), [.cdata "x".toList])) ∧
    (∀ d ds, ([.cdata "x".toList] : List XNode) = d :: ds → elementLike d = true →
      leadPlace [] [.cdata "x".toList] (blankHead " h".toList) =
        ([], setProp d "tf-space-after" (blankHead " h".toList) :: ds)) ∧
    (∀ d ds, ([.cdata "x".toList] : List XNode) = d :: ds → elementLike d = false →
      leadPlace [] [.cdata "x".toList] (blankHead " h".toList) =
        ([], [.cdata "x".toList]))) :=
  ⟨by decide, by decide, by decide,
   save_spaces_leading_run [] 0 [] [.cdata "x".toList] [] " h".toList
     (by decide) (by decide) (by decide)⟩

/-- C4 counterexample: in `c4tree` the pure-whitespace text node sits
between two CDATA siblings, so a previous and a next sibling exist but
neither is element-like; none of the four anchor rules applies and
`save_spaces` records the content nowhere, leaving the tree unchanged —
contradicting the claim that the content is attached to exactly one
anchor. -/
theorem save_spaces_blank_no_anchor :
    blankOnly "  ".toList = true ∧
    elementLike (.cdata "x".toList) = false ∧
    elementLike (.cdata "y".toList) = false ∧
    save_spaces [] c4tree = c4tree ∧
    getAttr c4tree "tf-space-prefix" = none ∧
    getAttr c4tree "tf-space-suffix" = none :=
  ⟨by decide, by decide, by decide, rfl, by decide, by decide⟩

/-- C4 amended: a pure-whitespace text node under a non-protected
parent is attached to AT MOST one anchor, by the first applicable rule
in the fixed order (no previous sibling — parent `tf-space-prefix`;
else no next sibling — parent `tf-space-suffix`; else element-like
previous — its `tf-space-after`; else element-like next — its
`tf-space-before`); when both siblings exist and neither is
element-like the content is recorded nowhere.  No leading/trailing-run
analysis is performed on such a node (first conjunct: the child loop
continues directly with the `blankPlace` result). -/
theorem save_spaces_pure_ws (prot : List String) (fuel : Nat)
    (pa : List XAttr) (done rest : List XNode) (s : List Char)
    (hname : prot.contains "text" = false)
    (hb : blankOnly s = true) :
    (ssChildren prot (fuel + 1) pa done (.text s :: rest) =
      ssChildren prot fuel (blankPlace pa done rest s).1
        (.text s :: (blankPlace pa done rest s).2.1)
        (blankPlace pa done rest s).2.2) ∧
    (done = [] → blankPlace pa done rest s =
      (setAttr pa "tf-space-prefix" s, done, rest)) ∧
    (∀ d ds, done = d :: ds → rest = [] → blankPlace pa done rest s =
      (setAttr pa "tf-space-suffix" s, done, rest)) ∧
    (∀ d ds r rs, done = d :: ds → rest = r :: rs → elementLike d = true →
      blankPlace pa done rest s = (pa, setProp d "tf-space-after" s :: ds, rest)) ∧
    (∀ d ds r rs, done = d :: ds → rest = r :: rs → elementLike d = false →
      elementLike r = true →
      blankPlace pa done rest s = (pa, done, setProp r "tf-space-before" s :: rs)) ∧
    (∀ d ds r rs, done = d :: ds → rest = r :: rs → elementLike d = false →
      elementLike r = false →
      blankPlace pa done rest s = (pa, done, rest)) := by
  refine ⟨?_, ?_, ?_, ?_, ?_, ?_⟩
  · simp only [ssChildren, XNode.xname, XNode.isText]
    rw [show (lowerStr "text") = "text" from by decide]
    simp [hname, hb, XNode.textContent]
    intro hmem
    simp at hname
    exact absurd hmem hname
  · intro h0
    subst h0
    simp [blankPlace]
  · intro d ds h0 h1
    subst h0
    subst h1
    simp [blankPlace]
  · intro d ds r rs h0 h1 hel
    subst h0
    subst h1
    simp [blankPlace, hel]
  · intro d ds r rs h0 h1 hel1 hel2
    subst h0
    subst h1
    simp [blankPlace, hel1, hel2]
  · intro d ds r rs h0 h1 hel1 hel2
    subst h0
    subst h1
    simp [blankPlace, hel1, hel2]

/-- Closed instance for the amended C4 statement. -/
theorem save_spaces_pure_ws_witness :
    (([] : List String).contains "text" = false) ∧
    blankOnly " ".toList = true ∧
    ((ssChildren [] 1 [] [] [.text " ".toList] =
      ssChildren [] 0 (blankPlace [] [] [] " ".toList).1
        (.text " ".toList :: (blankPlace [] [] [] " ".toList).2.1)
        (blankPlace [] [] [] " ".toList).2.2) ∧
    (([] : List XNode) = [] → blankPlace [] [] [] " ".toList =
      (setAttr [] "tf-space-prefix" " ".toList, [], [])) ∧
    (∀ d ds, ([] : List XNode) = d :: ds → ([] : List XNode) = [] →
      blankPlace [] [] [] " ".toList =
        (setAttr [] "tf-space-suffix" " ".toList, [], [])) ∧
    (∀ d ds r rs, ([] : List XNode) = d :: ds → ([] : List XNode) = r :: rs →
      elementLike d = true →
      blankPlace [] [] [] " ".toList =
        ([], setProp d "tf-space-after" " ".toList :: ds, [])) ∧
    (∀ d ds r rs, ([] : List XNode) = d :: ds → ([] : List XNode) = r :: rs →
      elementLike d = false → elementLike r = true →
      blankPlace [] [] [] " ".toList =
        ([], [], setProp r "tf-space-before" " ".toList :: rs)) ∧
    (∀ d ds r rs, ([] : List XNode) = d :: ds → ([] : List XNode) = r :: rs →
      elementLike d = false → elementLike r = false →
      blankPlace [] [] [] " ".toList = ([], [], []))) :=
  ⟨by decide, by decide,
   save_spaces_pure_ws [] 0 [] [] [] " ".toList (by decide) (by decide)⟩

/-! ## C5: the inline-collapse condition of the styler -/

/-- C5 counterexample: with the name `x` listed as both inline and
protected-inline, every condition enumerated by the claim holds
(`collapsesInline` is true: unprotected by prot membership, inherited
protection, or a `tf-protect` attribute; inline-named; first child not
prot-named; not an only child; no block descendant), yet the styler
does not collapse the element to inline delimiters: the
protected-inline branch is tested first, so the output starts with the
literal `<` of the `<tf-protect>` wrapper rather than with U+E011. -/
theorem save_styles_collapse_misses_prot_inline :
    collapsesInline c5pol c5frames false "x" [] [.text "y".toList] = true ∧
    (renderOne c5pol c5sty 2 c5frames false "p"
      (.elem "x" [] [.text "y".toList])).head? = some '<' ∧
    ('<' : Char) ≠ tfiOB := by
  decide

/-- C5 (amended): during styling, an element's rendering starts with
the inline-open delimiter U+E011 (the collapse to
`U+E011 name ':' id U+E012 body U+E013`) if and only if the
protected-inline wrap does not apply to it (its lower-cased name in
the protected-inline set while protection is not inherited) and the
collapse condition holds: not protected (by prot membership, inherited
protection, or a `tf-protect` attribute), inline-named, first child
present and not prot-named, not an only child, and no block
descendant; in every other case the output starts with the literal `<`
of its open tag (or of the `<tf-protect>` wrapper). -/
theorem save_styles_collapse_iff (pol : TagPolicy)
    (sty : String → List Char → List Char → List Char) (fuel : Nat)
    (frames : List Frame) (protect : Bool) (pname name : String)
    (attrs : List XAttr) (children : List XNode) :
    (renderOne pol sty (fuel + 1) frames protect pname
      (.elem name attrs children)).head? =
      some (if !(pol.tags_prot_inline.contains (lowerStr name) && !protect) &&
              collapsesInline pol frames protect name attrs children
            then tfiOB else '<') := by
  cases children with
  | nil =>
    have hc : collapsesInline pol frames protect name attrs [] = false := by
      simp [collapsesInline]
    simp only [hc, Bool.and_false, if_false, renderOne, List.isEmpty_nil, if_true]
    by_cases hpi : (pol.tags_prot_inline.contains (lowerStr name) && !protect) = true
    · simp only [hpi, if_true]
      rfl
    · simp only [hpi, if_false]
      rfl
  | cons c cs =>
    simp only [renderOne]
    cases hpi : pol.tags_prot_inline.contains (lowerStr name) && !protect with
    | true => rfl
    | false =>
      cases hco : collapsesInline pol frames protect name attrs (c :: cs) with
      | true => rfl
      | false => rfl

/-! ## C6: sidecar cleanliness of the injected document -/

theorem mem_removeA {x : XAttr} {a : List XAttr} {k : String}
    (h : x ∈ removeA a k) : x ∈ a := (List.mem_filter.mp h).1

theorem getA_none_name {a : List XAttr} {k : String}
    (h : getA a k = none) : ∀ x ∈ a, x.name ≠ k := by
  intro x hx
  unfold getA at h
  cases hf : a.find? (fun y => y.name = k) with
  | some y => rw [hf] at h; simp at h
  | none =>
    have := List.find?_eq_none.mp hf x hx
    simpa using this

theorem csTake_mem {x : XAttr} {a : List XAttr} {k : String}
    (h : x ∈ (csTake k a).2) : x ∈ a ∧ x.name ≠ k := by
  unfold csTake at h
  cases hg : getA a k with
  | some v =>
    rw [hg] at h
    refine ⟨mem_removeA h, ?_⟩
    have h2 := (List.mem_filter.mp h).2
    simpa using h2
  | none =>
    rw [hg] at h
    exact ⟨h, getA_none_name hg x h⟩

theorem OKn_removeAttr {n : XNode} {k : String} (h : OKn n) :
    OKn (removeAttr n k) := by
  cases h with
  | text s => exact OKn.text s
  | cdata s => exact OKn.cdata s
  | comment s => exact OKn.comment s
  | elem nm a children hn ha hc =>
    simp only [removeAttr]
    refine OKn.elem nm _ children ?_ ?_ hc
    · intro hs
      rcases hn hs with ⟨h1, h2⟩
      refine ⟨h1, ?_⟩
      rw [h2]
      rfl
    · intro x hx
      exact ha x (List.mem_filter.mp hx).1

theorem rsAdj_OK {k : String} {comb : List Char → List Char → List Char}
    {s : List Char} {adj : List XNode} (h : ∀ c ∈ adj, OKn c) :
    ∀ c ∈ (rsAdj k comb s adj).2, OKn c := by
  cases adj with
  | nil => intro c hc; simp [rsAdj] at hc
  | cons n ns =>
    cases hg : getAttr n k with
    | some v =>
      simp only [rsAdj, hg]
      intro c hc
      rcases List.mem_cons.mp hc with rfl | hc
      · exact OKn_removeAttr (h n (List.mem_cons_self n ns))
      · exact h c (List.mem_cons_of_mem n hc)
    | none =>
      simp only [rsAdj, hg]
      exact h

theorem rsPar_mem {k : String} {comb : List Char → List Char → List Char}
    {gate : Bool} {s : List Char} {pa : List XAttr}
    {x : XAttr} (h : x ∈ (rsPar k comb gate s pa).2) : x ∈ pa := by
  unfold rsPar at h
  split at h
  · cases hg : getA pa k with
    | some v => rw [hg] at h; exact mem_removeA h
    | none => rw [hg] at h; exact h
  · exact h

theorem rsText_OK (pa : List XAttr) (preRev : List XNode) (s : List Char)
    (rest : List XNode)
    (hp : ∀ c ∈ preRev, OKn c) (hr : ∀ c ∈ rest, OKn c) :
    (∀ x ∈ (rsText pa preRev s rest).1, x ∈ pa) ∧
    (∀ c ∈ (rsText pa preRev s rest).2.1, OKn c) ∧
    (∀ c ∈ (rsText pa preRev s rest).2.2, OKn c) := by
  refine ⟨?_, ?_, ?_⟩
  · intro x hx
    exact rsPar_mem (rsPar_mem hx)
  · intro c hc
    rcases List.mem_cons.mp hc with rfl | hc
    · exact OKn.text _
    · exact rsAdj_OK hp c hc
  · intro c hc
    exact rsAdj_OK hr c hc

theorem rs_OK (fuel : Nat) :
    (∀ (prot : List String) (n : XNode), OKn n → OKn (rsNode prot fuel n)) ∧
    (∀ (prot : List String) (pa : List XAttr) (preRev rest : List XNode),
      (∀ c ∈ preRev, OKn c) → (∀ c ∈ rest, OKn c) →
      (∀ x ∈ (rsChildren prot fuel pa preRev rest).1, x ∈ pa) ∧
      (∀ c ∈ (rsChildren prot fuel pa preRev rest).2, OKn c)) := by
  induction fuel with
  | zero =>
    constructor
    · intro prot n h; exact h
    · intro prot pa preRev rest hp hr
      constructor
      · intro x hx; simpa [rsChildren] using hx
      · intro c hc
        simp only [rsChildren] at hc
        rcases List.mem_append.mp hc with hc | hc
        · exact hp c (List.mem_reverse.mp hc)
        · exact hr c hc
  | succ fuel ih =>
    constructor
    · intro prot n h
      cases n with
      | elem nm a c =>
        cases h with
        | elem _ _ _ hn ha hc =>
          simp only [rsNode]
          have h2 := ih.2 prot a [] c (by intro c hc; simp at hc) hc
          refine OKn.elem nm _ _ ?_ ?_ h2.2
          · intro hs
            rcases hn hs with ⟨h1, h2'⟩
            refine ⟨h1, ?_⟩
            refine List.eq_nil_iff_forall_not_mem.mpr (fun x hx => ?_)
            have := h2.1 x hx
            rw [h2'] at this
            simp at this
          · intro x hx hsx
            exact ha x (h2.1 x hx) hsx
      | text s => exact h
      | cdata s => exact h
      | comment s => exact h
    · intro prot pa preRev rest hp hr
      cases rest with
      | nil =>
        constructor
        · intro x hx; simpa [rsChildren] using hx
        · intro c hc
          simp only [rsChildren] at hc
          exact hp c (List.mem_reverse.mp hc)
      | cons child rest =>
        have hr' : ∀ c ∈ rest, OKn c :=
          fun c hc => hr c (List.mem_cons_of_mem _ hc)
        by_cases hskip : prot.contains (lowerStr child.xname) = true
        · have hstep : rsChildren prot (fuel + 1) pa preRev (child :: rest) =
              rsChildren prot fuel pa (child :: preRev) rest := by
            simp only [rsChildren]
            rw [if_pos hskip]
          rw [hstep]
          refine ih.2 prot pa (child :: preRev) rest ?_ hr'
          intro c hc
          rcases List.mem_cons.mp hc with rfl | hc
          · exact hr c (List.mem_cons_self _ _)
          · exact hp c hc
        · cases child with
          | text s =>
            have hstep : rsChildren prot (fuel + 1) pa preRev (.text s :: rest) =
                rsChildren prot fuel (rsText pa preRev s rest).1
                  (rsText pa preRev s rest).2.1 (rsText pa preRev s rest).2.2 := by
              simp only [rsChildren]
              rw [if_neg hskip]
            rw [hstep]
            have ht := rsText_OK pa preRev s rest hp hr'
            have hmain := ih.2 prot (rsText pa preRev s rest).1
              (rsText pa preRev s rest).2.1 (rsText pa preRev s rest).2.2
              ht.2.1 ht.2.2
            exact ⟨fun x hx => ht.1 x (hmain.1 x hx), hmain.2⟩
          | elem nm a ch =>
            have hstep : rsChildren prot (fuel + 1) pa preRev (.elem nm a ch :: rest) =
                rsChildren prot fuel pa
                  (rsNode prot fuel (.elem nm a ch) :: preRev) rest := by
              simp only [rsChildren]
              rw [if_neg hskip]
            rw [hstep]
            refine ih.2 prot pa _ rest ?_ hr'
            intro c hc
            rcases List.mem_cons.mp hc with rfl | hc
            · exact ih.1 prot _ (hr _ (List.mem_cons_self _ _))
            · exact hp c hc
          | cdata s =>
            have hstep : rsChildren prot (fuel + 1) pa preRev (.cdata s :: rest) =
                rsChildren prot fuel pa
                  (rsNode prot fuel (.cdata s) :: preRev) rest := by
              simp only [rsChildren]
              rw [if_neg hskip]
            rw [hstep]
            refine ih.2 prot pa _ rest ?_ hr'
            intro c hc
            rcases List.mem_cons.mp hc with rfl | hc
            · exact ih.1 prot _ (hr _ (List.mem_cons_self _ _))
            · exact hp c hc
          | comment s =>
            have hstep : rsChildren prot (fuel + 1) pa preRev (.comment s :: rest) =
                rsChildren prot fuel pa
                  (rsNode prot fuel (.comment s) :: preRev) rest := by
              simp only [rsChildren]
              rw [if_neg hskip]
            rw [hstep]
            refine ih.2 prot pa _ rest ?_ hr'
            intro c hc
            rcases List.mem_cons.mp hc with rfl | hc
            · exact ih.1 prot _ (hr _ (List.mem_cons_self _ _))
            · exact hp c hc

theorem optTexts_Mid {c : XNode} {o : Option (List Char)}
    (h : c ∈ optTexts o) : Midn c := by
  cases o with
  | some v =>
    simp only [optTexts, List.mem_singleton] at h
    subst h
    exact Midn.text v
  | none => simp [optTexts] at h

theorem csChildren_Mid : ∀ (fuel : Nat) (rest : List XNode),
    msrL rest ≤ fuel → (∀ c ∈ rest, OKn c) →
    ∀ c ∈ csChildren [] fuel rest, Midn c := by
  intro fuel
  induction fuel with
  | zero =>
    intro rest hm h c hc
    cases rest with
    | nil => simp [csChildren] at hc
    | cons a l => simp only [msrL] at hm; omega
  | succ fuel ih =>
    intro rest hm h c hc
    cases rest with
    | nil => simp [csChildren] at hc
    | cons child rest =>
      have hm' : msrL rest ≤ fuel := by
        simp only [msrL] at hm; omega
      have hr' : ∀ c ∈ rest, OKn c :=
        fun c hc => h c (List.mem_cons_of_mem _ hc)
      simp only [csChildren, List.contains_nil, Bool.false_eq_true, if_false,
        List.mem_append] at hc
      rcases hc with hc | hc
      · cases hchild : child with
        | elem nm a ch =>
          rw [hchild] at hc
          have hok := h child (List.mem_cons_self _ _)
          rw [hchild] at hok
          cases hok with
          | elem _ _ _ hn ha hcc =>
            have hmch : msrL ch ≤ fuel := by
              rw [hchild] at hm; simp only [msrL, msrN] at hm; omega
            simp only [List.mem_append] at hc
            rcases hc with (hc | hc) | hc
            · exact optTexts_Mid hc
            · rw [List.mem_singleton] at hc
              subst hc
              refine Midn.elem _ _ _ ?_ ?_ ?_
              · intro hs
                rcases hn hs with ⟨h1, h2⟩
                subst h2
                exact ⟨h1, rfl⟩
              · intro x hx
                have m4 := csTake_mem hx
                have m3 := csTake_mem m4.1
                have m2 := csTake_mem m3.1
                have m1 := csTake_mem m2.1
                by_cases hs : startsTf x.name = true
                · have := ha x m1.1 hs
                  simp only [tfSpaceNames, List.mem_cons,
                    List.not_mem_nil] at this
                  rcases this with h' | h' | h' | h' | h'
                  · exact absurd h' m1.2
                  · exact absurd h' m2.2
                  · exact absurd h' m3.2
                  · exact absurd h' m4.2
                  · exact absurd h' (by simp)
                · simpa using hs
              · intro c hc
                simp only [List.mem_append] at hc
                rcases hc with (hc | hc) | hc
                · exact optTexts_Mid hc
                · exact ih ch hmch hcc c hc
                · exact optTexts_Mid hc
            · exact optTexts_Mid hc
        | text s =>
          rw [hchild] at hc
          simp only [List.mem_singleton] at hc
          subst hc
          exact Midn.text s
        | cdata s =>
          rw [hchild] at hc
          simp only [List.mem_singleton] at hc
          subst hc
          exact Midn.cdata s
        | comment s =>
          rw [hchild] at hc
          simp only [List.mem_singleton] at hc
          subst hc
          exact Midn.comment s
      · exact ih rest hm' hr' c hc

theorem strip_Clean : ∀ (fuel : Nat) (l : List XNode),
    msrL l ≤ fuel → (∀ c ∈ l, Midn c) →
    ∀ c ∈ stripTfText fuel l, Cleann c := by
  intro fuel
  induction fuel with
  | zero =>
    intro l hm h c hc
    cases l with
    | nil => simp [stripTfText] at hc
    | cons a l => simp only [msrL] at hm; omega
  | succ fuel ih =>
    intro l hm h c hc
    cases l with
    | nil => simp [stripTfText] at hc
    | cons child rest =>
      have hm' : msrL rest ≤ fuel := by
        simp only [msrL] at hm; omega
      have hr' : ∀ c ∈ rest, Midn c :=
        fun c hc => h c (List.mem_cons_of_mem _ hc)
      simp only [stripTfText, List.mem_append] at hc
      rcases hc with hc | hc
      · cases hchild : child with
        | elem nm a ch =>
          rw [hchild] at hc
          dsimp only at hc
          have hmid := h child (List.mem_cons_self _ _)
          rw [hchild] at hmid
          cases hmid with
          | elem _ _ _ hn ha hcc =>
            have hmch : msrL ch ≤ fuel := by
              rw [hchild] at hm; simp only [msrL, msrN] at hm; omega
            by_cases htf : (nm = "tf-text" && a.isEmpty) = true
            · rw [if_pos htf] at hc
              exact ih ch hmch hcc c hc
            · rw [if_neg htf] at hc
              rw [List.mem_singleton] at hc
              subst hc
              refine Cleann.elem _ _ _ ?_ ha ?_
              · by_cases hs : startsTf nm = true
                · rcases hn hs with ⟨h1, h2⟩
                  exfalso
                  apply htf
                  subst h1
                  subst h2
                  simp
                · simpa using hs
              · intro c hc
                exact ih ch hmch hcc c hc
        | text s =>
          rw [hchild] at hc
          simp only [List.mem_singleton] at hc
          subst hc
          exact Cleann.text s
        | cdata s =>
          rw [hchild] at hc
          simp only [List.mem_singleton] at hc
          subst hc
          exact Cleann.cdata s
        | comment s =>
          rw [hchild] at hc
          simp only [List.mem_singleton] at hc
          subst hc
          exact Cleann.comment s
      · exact ih rest hm' hr' c hc

theorem tfOKL_sound : ∀ (fuel : Nat) (l : List XNode),
    msrL l ≤ fuel → tfOKL fuel l = true → ∀ c ∈ l, OKn c := by
  intro fuel
  induction fuel with
  | zero =>
    intro l hm hok c hc
    cases l with
    | nil => simp at hc
    | cons a l => simp only [msrL] at hm; omega
  | succ fuel ih =>
    intro l hm hok c hc
    cases l with
    | nil => simp at hc
    | cons child rest =>
      have hm' : msrL rest ≤ fuel := by
        simp only [msrL] at hm; omega
      rcases List.mem_cons.mp hc with rfl | hc
      · cases c with
        | elem nm a ch =>
          simp only [tfOKL, Bool.and_eq_true] at hok
          have hm2 : msrL ch ≤ fuel := by
            simp only [msrL, msrN] at hm; omega
          rcases hok.1 with ⟨⟨h1, h2⟩, h3⟩
          refine OKn.elem nm a ch ?_ ?_ (ih ch hm2 h3)
          · intro hs
            rw [hs] at h1
            simp only [Bool.not_true, Bool.false_or, Bool.and_eq_true,
              beq_iff_eq, List.isEmpty_iff] at h1
            exact h1
          · intro x hx hsx
            have := (List.all_eq_true.mp h2) x hx
            rw [hsx] at this
            simp only [Bool.not_true, Bool.false_or] at this
            exact List.contains_iff_exists_mem_beq.mp this |>.elim
              (fun y hy => by
                rcases hy with ⟨hy1, hy2⟩
                have : x.name = y := by simpa using hy2
                rw [this]; exact hy1)
        | text s => exact OKn.text s
        | cdata s => exact OKn.cdata s
        | comment s => exact OKn.comment s
      · have hok2 : tfOKL fuel rest = true := by
          cases child <;> simp only [tfOKL, Bool.and_eq_true] at hok <;>
            exact hok.2
        exact ih rest hm' hok2 c hc

theorem tfCleanL_complete : ∀ (fuel : Nat) (l : List XNode),
    msrL l ≤ fuel → (∀ c ∈ l, Cleann c) → tfCleanL fuel l = true := by
  intro fuel
  induction fuel with
  | zero =>
    intro l hm h
    cases l with
    | nil => rfl
    | cons a l => simp only [msrL] at hm; omega
  | succ fuel ih =>
    intro l hm h
    cases l with
    | nil => rfl
    | cons child rest =>
      have hm' : msrL rest ≤ fuel := by
        simp only [msrL] at hm; omega
      have hr' : ∀ c ∈ rest, Cleann c :=
        fun c hc => h c (List.mem_cons_of_mem _ hc)
      simp only [tfCleanL, Bool.and_eq_true]
      refine ⟨?_, ih rest hm' hr'⟩
      have hchild := h child (List.mem_cons_self _ _)
      cases hchild with
      | elem nm a ch hn ha hcc =>
        have hm2 : msrL ch ≤ fuel := by
          simp only [msrL, msrN] at hm; omega
        simp only [Bool.and_eq_true]
        refine ⟨⟨?_, ?_⟩, ih ch hm2 hcc⟩
        · rw [hn]; rfl
        · rw [List.all_eq_true]
          intro x hx
          rw [ha x hx]
          rfl
      | text s => rfl
      | cdata s => rfl
      | comment s => rfl

theorem appendAttrs_false_filter (attrs : List XAttr) :
    appendAttrs false attrs =
      renderAttrs (attrs.filter (fun x => !startsTf x.name)) := by
  induction attrs with
  | nil => rfl
  | cons a rest ih =>
    by_cases hs : startsTf a.name = true
    · have hstep : appendAttrs false (a :: rest) = appendAttrs false rest := by
        simp only [appendAttrs]
        rw [if_pos (by simp [hs])]
      rw [hstep, List.filter_cons, if_neg (by simp [hs])]
      exact ih
    · have hstep : appendAttrs false (a :: rest) =
          (' ' :: (a.name.data ++ ('=' :: '"' :: (escapeXml true a.val ++ ['"'])))) ++
            appendAttrs false rest := by
        simp only [appendAttrs]
        rw [if_neg (by simp [hs])]
      rw [hstep, List.filter_cons, if_pos (by simpa using hs)]
      simp only [renderAttrs, List.map_cons, List.flatten_cons]
      rw [ih]
      rfl

/-- C6: for every inject-side parsed tree whose `tf-`-prefixed
vocabulary is the one the extractor writes into `content.xml` (the
four `tf-space-*` sidecar attributes and attribute-less `tf-text`
wrapper elements), the restored and `tf-text`-spliced document
contains no element name and no attribute name beginning with `tf-`;
moreover the `append_attrs` serializer in its default `with_tf =
false` mode renders exactly the attributes whose names do not begin
with `tf-`. -/
theorem injected_no_tf_names (doc : List XNode) (H : tfOK doc = true) :
    tfClean (stripAll (restoreCreate doc)) = true ∧
    ∀ attrs : List XAttr, appendAttrs false attrs =
      renderAttrs (attrs.filter (fun x => !startsTf x.name)) := by
  constructor
  · have h0 : ∀ c ∈ doc, OKn c := tfOKL_sound (msrL doc) doc le_rfl H
    have h1 := (rs_OK (msrL doc + 1)).2 [] [] [] doc
      (by intro c hc; simp at hc) h0
    have h2 : ∀ c ∈ restoreCreate doc, Midn c :=
      csChildren_Mid (msrL (rsChildren [] (msrL doc + 1) [] [] doc).2 + 1)
        (rsChildren [] (msrL doc + 1) [] [] doc).2 (Nat.le_succ _) h1.2
    have h3 : ∀ c ∈ stripAll (restoreCreate doc), Cleann c :=
      strip_Clean (msrL (restoreCreate doc)) (restoreCreate doc) le_rfl h2
    exact tfCleanL_complete (msrL (stripAll (restoreCreate doc))) _ le_rfl h3
  · exact appendAttrs_false_filter

/-- C6 witness: a concrete docx-like inject-side tree with sidecar
attributes and a `tf-text` wrapper satisfies the vocabulary
hypothesis, so the theorem applies to it. -/
theorem injected_no_tf_names_witness :
    tfOK c6doc = true ∧
    (tfClean (stripAll (restoreCreate c6doc)) = true ∧
     ∀ attrs : List XAttr, appendAttrs false attrs =
       renderAttrs (attrs.filter (fun x => !startsTf x.name))) :=
  ⟨by decide, injected_no_tf_names c6doc (by decide)⟩

/-! ## C7: block id shape and uniqueness -/

theorem decDigit_toNat : ∀ d, d < 10 → (decDigit d).toNat = 48 + d := by
  decide

theorem decDigit_ne_dash : ∀ d, d < 10 → decDigit d ≠ '-' := by
  decide

theorem decVal_append_digit (l : List Char) (c : Char) :
    decVal (l ++ [c]) = decVal l * 10 + (c.toNat - 48) := by
  simp [decVal, List.foldl_append]

theorem natDecF_val : ∀ (fuel n : Nat), n < fuel →
    decVal (natDecF fuel n) = n := by
  intro fuel
  induction fuel with
  | zero => intro n h; omega
  | succ fuel ih =>
    intro n h
    by_cases h10 : n < 10
    · simp only [natDecF, if_pos h10]
      simp [decVal, decDigit_toNat n h10]
    · simp only [natDecF, if_neg h10]
      rw [decVal_append_digit]
      have hdiv : n / 10 < fuel := by
        have := Nat.div_lt_self (by omega : 0 < n) (by omega : 1 < 10)
        omega
      rw [ih (n / 10) hdiv, decDigit_toNat (n % 10) (Nat.mod_lt _ (by omega))]
      omega

theorem natDec_val (n : Nat) : decVal (natDec n) = n :=
  natDecF_val (n + 1) n (Nat.lt_succ_self n)

theorem natDecF_no_dash : ∀ (fuel n : Nat), '-' ∉ natDecF fuel n := by
  intro fuel
  induction fuel with
  | zero => intro n h; simp [natDecF] at h
  | succ fuel ih =>
    intro n h
    by_cases h10 : n < 10
    · simp only [natDecF, if_pos h10, List.mem_singleton] at h
      exact decDigit_ne_dash n h10 h.symm
    · simp only [natDecF, if_neg h10, List.mem_append,
        List.mem_singleton] at h
      rcases h with h | h
      · exact ih (n / 10) h
      · exact decDigit_ne_dash (n % 10) (Nat.mod_lt _ (by omega)) h.symm

theorem natDec_no_dash (n : Nat) : '-' ∉ natDec n := natDecF_no_dash (n + 1) n

theorem idNum_mkBid (hf : List Char → List Char) (n : Nat) (v : List Char) :
    idNum (mkBid hf n v) = n := by
  unfold idNum mkBid
  rw [takeWhile_append_all (fun c hc => by
    simp only [decide_eq_true_eq]
    intro hEq
    exact natDec_no_dash n (hEq ▸ hc))]
  rw [List.takeWhile_cons]
  simp [natDec_val]

theorem mem_mkBids_idNum (hf : List Char → List Char) :
    ∀ (vs : List (List Char)) (c : Nat) (x : List Char),
      x ∈ mkBids hf c vs → c + 1 ≤ idNum x := by
  intro vs
  induction vs with
  | nil => intro c x h; simp [mkBids] at h
  | cons v vs ih =>
    intro c x h
    simp only [mkBids, List.mem_cons] at h
    rcases h with rfl | h
    · rw [idNum_mkBid]
    · have := ih (c + 1) x h
      omega

theorem mkBids_nodup (hf : List Char → List Char) :
    ∀ (vs : List (List Char)) (c : Nat), (mkBids hf c vs).Nodup := by
  intro vs
  induction vs with
  | nil => intro c; simp [mkBids]
  | cons v vs ih =>
    intro c
    simp only [mkBids]
    refine List.nodup_cons.mpr ⟨?_, ih (c + 1)⟩
    intro hmem
    have := mem_mkBids_idNum hf vs (c + 1) _ hmem
    rw [idNum_mkBid] at this
    omega

theorem mkBids_append (hf : List Char → List Char) :
    ∀ (v1 : List (List Char)) (c : Nat) (v2 : List (List Char)),
      mkBids hf c (v1 ++ v2) =
        mkBids hf c v1 ++ mkBids hf (c + v1.length) v2 := by
  intro v1
  induction v1 with
  | nil => intro c v2; simp [mkBids]
  | cons v vs ih =>
    intro c v2
    simp only [List.cons_append, mkBids, List.length_cons, List.append_eq]
    rw [ih (c + 1) v2]
    have : c + 1 + vs.length = c + (vs.length + 1) := by omega
    rw [this]

theorem emitsFrom_empty (hf : List Char → List Char) (c : Nat) :
    EmitsFrom hf c (c, []) := ⟨[], by simp [mkBids]⟩

theorem emitsFrom_single (hf : List Char → List Char) (c : Nat)
    (v : List Char) : EmitsFrom hf c (c + 1, [mkBid hf (c + 1) v]) :=
  ⟨[v], by simp [mkBids]⟩

theorem emitsFrom_comp {hf : List Char → List Char} {c : Nat}
    {o1 o2 : Nat × List (List Char)}
    (e1 : EmitsFrom hf c o1) (e2 : EmitsFrom hf o1.1 o2) :
    EmitsFrom hf c (o2.1, o1.2 ++ o2.2) := by
  obtain ⟨v1, h11, h12⟩ := e1
  obtain ⟨v2, h21, h22⟩ := e2
  refine ⟨v1 ++ v2, ?_, ?_⟩
  · simp only [List.length_append]
    rw [h21, h11]
    omega
  · show o1.2 ++ o2.2 = _
    rw [h12, h22, h11, mkBids_append]

theorem extAttrs_emits (hf : List Char → List Char) (attrs : List XAttr) :
    ∀ (tagAttrs : List String) (counter : Nat),
      EmitsFrom hf counter (extAttrs hf attrs tagAttrs counter) := by
  intro tagAttrs
  induction tagAttrs with
  | nil => intro counter; exact emitsFrom_empty hf counter
  | cons a rest ih =>
    intro counter
    cases hg : getA attrs a with
    | some v =>
      by_cases hal : hasAlnum v = true
      · have hstep : extAttrs hf attrs (a :: rest) counter =
            ((extAttrs hf attrs rest (counter + 1)).1,
             mkBid hf (counter + 1) v ::
               (extAttrs hf attrs rest (counter + 1)).2) := by
          simp only [extAttrs, hg]
          rw [if_pos hal]
        rw [hstep]
        have := emitsFrom_comp (emitsFrom_single hf counter v)
          (ih (counter + 1))
        obtain ⟨vals, h1, h2⟩ := this
        exact ⟨vals, h1, by simpa using h2⟩
      · have hstep : extAttrs hf attrs (a :: rest) counter =
            extAttrs hf attrs rest counter := by
          simp only [extAttrs, hg]
          rw [if_neg hal]
        rw [hstep]
        exact ih counter
    | none =>
      have hstep : extAttrs hf attrs (a :: rest) counter =
          extAttrs hf attrs rest counter := by
        simp only [extAttrs, hg]
      rw [hstep]
      exact ih counter

theorem extElemAttrs_emits (pol : TagPolicy) (hf : List Char → List Char)
    (child : XNode) (counter : Nat) :
    EmitsFrom hf counter (extElemAttrs pol hf child counter) := by
  unfold extElemAttrs
  split
  · exact extAttrs_emits hf child.nattrs pol.tag_attrs counter
  · exact emitsFrom_empty hf counter

theorem extTxt_emits (pol : TagPolicy) (hf : List Char → List Char)
    (txt : Bool) (pname : String) (pattrs : List XAttr)
    (content : List Char) (counter : Nat) :
    EmitsFrom hf counter (extTxt pol hf txt pname pattrs content counter) := by
  unfold extTxt
  split
  · exact emitsFrom_empty hf counter
  split
  · exact emitsFrom_empty hf counter
  split
  · exact emitsFrom_empty hf counter
  split
  · exact emitsFrom_single hf counter content
  · exact emitsFrom_empty hf counter

theorem extDescend_emits (pol : TagPolicy) (hf : List Char → List Char)
    (fuel : Nat) (txt : Bool) (pname : String) (pattrs : List XAttr)
    (child : XNode) (counter : Nat)
    (hn : ∀ (txt' : Bool) (n : XNode) (c : Nat),
      EmitsFrom hf c (extNode pol hf fuel txt' n c)) :
    EmitsFrom hf counter
      (extDescend pol hf fuel txt pname pattrs child counter) := by
  unfold extDescend
  split
  · exact hn true child counter
  split
  · exact hn txt child counter
  split
  · exact extTxt_emits pol hf txt pname pattrs child.textContent counter
  · exact emitsFrom_empty hf counter

theorem extChildren_cons (pol : TagPolicy) (hf : List Char → List Char)
    (fuel : Nat) (txt : Bool) (pname : String) (pattrs : List XAttr)
    (child : XNode) (rest : List XNode) (counter : Nat)
    (hskip : ¬(pol.tags_prot.contains (lowerStr child.xname) = true)) :
    extChildren pol hf (fuel + 1) txt pname pattrs (child :: rest) counter =
      ((extChildren pol hf fuel txt pname pattrs rest
          (extDescend pol hf fuel txt pname pattrs child
            (extElemAttrs pol hf child counter).1).1).1,
       (extElemAttrs pol hf child counter).2 ++
         (extDescend pol hf fuel txt pname pattrs child
           (extElemAttrs pol hf child counter).1).2 ++
         (extChildren pol hf fuel txt pname pattrs rest
           (extDescend pol hf fuel txt pname pattrs child
             (extElemAttrs pol hf child counter).1).1).2) := by
  simp only [extChildren]
  rw [if_neg hskip]
  rfl

theorem ext_emits (fuel : Nat) :
    (∀ (pol : TagPolicy) (hf : List Char → List Char) (txt : Bool)
      (n : XNode) (counter : Nat),
      EmitsFrom hf counter (extNode pol hf fuel txt n counter)) ∧
    (∀ (pol : TagPolicy) (hf : List Char → List Char) (txt : Bool)
      (pname : String) (pattrs : List XAttr) (children : List XNode)
      (counter : Nat),
      EmitsFrom hf counter
        (extChildren pol hf fuel txt pname pattrs children counter)) := by
  induction fuel with
  | zero =>
    constructor
    · intro pol hf txt n counter; exact emitsFrom_empty hf counter
    · intro pol hf txt pname pattrs children counter
      exact emitsFrom_empty hf counter
  | succ fuel ih =>
    constructor
    · intro pol hf txt n counter
      cases n with
      | elem nm a children =>
        simp only [extNode]
        exact ih.2 pol hf _ nm a children counter
      | text s => exact emitsFrom_empty hf counter
      | cdata s => exact emitsFrom_empty hf counter
      | comment s => exact emitsFrom_empty hf counter
    · intro pol hf txt pname pattrs children counter
      cases children with
      | nil => exact emitsFrom_empty hf counter
      | cons child rest =>
        by_cases hskip : pol.tags_prot.contains (lowerStr child.xname) = true
        · have hstep : extChildren pol hf (fuel + 1) txt pname pattrs
              (child :: rest) counter =
              extChildren pol hf fuel txt pname pattrs rest counter := by
            simp only [extChildren]
            rw [if_pos hskip]
          rw [hstep]
          exact ih.2 pol hf txt pname pattrs rest counter
        · rw [extChildren_cons pol hf fuel txt pname pattrs child rest
            counter hskip]
          exact emitsFrom_comp
            (emitsFrom_comp (extElemAttrs_emits pol hf child counter)
              (extDescend_emits pol hf fuel txt pname pattrs child
                (extElemAttrs pol hf child counter).1
                (fun txt' n c => ih.1 pol hf txt' n c)))
            (ih.2 pol hf txt pname pattrs rest
              (extDescend pol hf fuel txt pname pattrs child
                (extElemAttrs pol hf child counter).1).1)

/-- C7: every run of the block extractor advances the shared counter
by one per emitted block and emits exactly the ids
`natDec n ++ '-' :: hash(value)` for the consecutive counters `n`
starting right above the entry counter (`mkBids`), for text-node and
attribute-value blocks alike; and because the decimal counter in front
of the first `-` is recoverable from each id and strictly increasing,
the emitted ids are pairwise distinct.  The XXH32-with-seed-0 plus
base64url composite lives outside `src/` and is the parameter `hf`. -/
theorem block_ids_unique (pol : TagPolicy) (hf : List Char → List Char)
    (fuel : Nat) (txt : Bool) (node : XNode) (counter : Nat) :
    (∃ vals : List (List Char),
      (extNode pol hf fuel txt node counter).1 = counter + vals.length ∧
      (extNode pol hf fuel txt node counter).2 = mkBids hf counter vals) ∧
    (extNode pol hf fuel txt node counter).2.Nodup := by
  obtain ⟨vals, h1, h2⟩ := (ext_emits fuel).1 pol hf txt node counter
  refine ⟨⟨vals, h1, h2⟩, ?_⟩
  rw [h2]
  exact mkBids_nodup hf vals counter

end Transfuse
